import Mathlib

/-!
Shallow embedding of `scripts/enhance_entries.py` (trail-journal-extractor).

Python strings are modelled as Lean `String` (lists of unicode scalars),
Python dicts as insertion-ordered association lists, the Python `float`
values produced by parsing decimal literals as exact rationals, and
exceptions as `Except PyErr`.  The regex searches of the source are
modelled as explicit leftmost-match scanners, faithful to `re.search`
semantics for the concrete patterns appearing in the source.
-/

namespace Enhance

/-- Exceptions that the embedded code can raise. -/
inductive PyErr where
  | keyError (field : String)
  | valueError
  | typeError
deriving DecidableEq, Repr

/-- Whitespace characters stripped by Python `str.strip()` (ASCII range,
which covers every input considered here). -/
def pyIsSpace (c : Char) : Bool :=
  c = ' ' || c = '\t' || c = '\n' || c = '\r' || c = '\x0b' || c = '\x0c'

/-- `str.strip()` on a character list. -/
def stripL (cs : List Char) : List Char :=
  ((cs.dropWhile pyIsSpace).reverse.dropWhile pyIsSpace).reverse

/-- Python `str.strip()`. -/
def pyStrip (s : String) : String := ⟨stripL s.toList⟩

/-- The entry separator `"\n---\n"` used by `content.split('\n---\n')`. -/
def sepL : List Char := ['\n', '-', '-', '-', '\n']

/-- Python `str.split('\n---\n')`: non-overlapping leftmost splitting;
splitting the empty string yields one empty piece. -/
def splitSepL : List Char → List (List Char)
  | [] => [[]]
  | '\n' :: '-' :: '-' :: '-' :: '\n' :: rest => [] :: splitSepL rest
  | c :: cs =>
    match splitSepL cs with
    | [] => [[c]]
    | p :: ps => (c :: p) :: ps

/-- `content.split('\n---\n')` on strings. -/
def splitSep (s : String) : List String := (splitSepL s.toList).map (fun l => ⟨l⟩)

/-- `'\n---\n'.join(texts)`. -/
def joinSep (l : List String) : String := String.intercalate "\n---\n" l

/-- Leftmost occurrence of a (nonempty) literal pattern: returns the suffix
after the first occurrence, like the tail of a `re.search` for the literal. -/
def dropAfterFirst (pat : List Char) : List Char → Option (List Char)
  | [] => none
  | c :: cs =>
    if pat.isPrefixOf (c :: cs) then some ((c :: cs).drop pat.length)
    else dropAfterFirst pat cs

/-- The delimiter `' â€” '` appearing (as literal text, a mojibake rendering
of an em-dash) inside the header regex of `parse_entry_metadata`. -/
def headerDelim : List Char := [' ', 'â', '€', '”', ' ']

/-- Lazy scan of one line for `headerDelim`: returns the shortest group
before the delimiter together with the text after it, failing at a newline.
Models `(.*?) â€” ` inside `re.search(r'# (.*?) â€” (.*?)$', ..., MULTILINE)`. -/
def splitAtDelim : List Char → Option (List Char × List Char)
  | [] => none
  | c :: cs =>
    if headerDelim.isPrefixOf (c :: cs) then some ([], (c :: cs).drop 5)
    else if c = '\n' then none
    else
      match splitAtDelim cs with
      | some (a, b) => some (c :: a, b)
      | none => none

/-- Leftmost match of `re.search(r'# (.*?) â€” (.*?)$', text, re.MULTILINE)`:
group 1 (before the delimiter) and group 2 (the rest of that line). -/
def searchHeader : List Char → Option (List Char × List Char)
  | [] => none
  | c :: cs =>
    if c = '#' && cs.head? = some ' ' then
      match splitAtDelim cs.tail with
      | some (g1, rest) => some (g1, rest.takeWhile (· ≠ '\n'))
      | none => searchHeader cs
    else searchHeader cs

/-- Leftmost match of `re.search(r'LABEL (.*?)$', text, re.MULTILINE)` for a
literal label: the rest of the line after the first occurrence of the label. -/
def searchLabelLine (pat : List Char) (cs : List Char) : Option (List Char) :=
  (dropAfterFirst pat cs).map (fun rest => rest.takeWhile (· ≠ '\n'))

def isNumChar (c : Char) : Bool := c.isDigit || c = '.'

/-- Leftmost match of `re.search(r'LABEL ([\d.]+)', text)`: the first
occurrence of the label that is immediately followed by at least one
digit-or-dot character (the regex backtracks past occurrences that are not),
returning the maximal digit-or-dot run. -/
def searchNumField (pat : List Char) : List Char → Option (List Char)
  | [] => none
  | c :: cs =>
    if pat.isPrefixOf (c :: cs) then
      let rest := (c :: cs).drop pat.length
      match rest.head? with
      | some d => if isNumChar d then some (rest.takeWhile isNumChar) else searchNumField pat cs
      | none => searchNumField pat cs
    else searchNumField pat cs

/-- Numeric value of a digit list. -/
def digitsVal (cs : List Char) : Nat := cs.foldl (fun a c => a * 10 + (c.toNat - 48)) 0

/-- Python `float` applied to a nonempty run of digit-or-dot characters
(the only shape the `[\d.]+` captures can have): exact decimal value, or
`ValueError` for zero digits or more than one dot.
The source stores the result in a binary double; the exact rational is used
here since no claim depends on rounding. -/
def pyFloat (cs : List Char) : Except PyErr ℚ :=
  if cs.all Char.isDigit then
    if cs = [] then .error .valueError else .ok (mkRat (digitsVal cs) 1)
  else if cs.count '.' = 1 then
    let a := cs.takeWhile (· ≠ '.')
    let b := (cs.dropWhile (· ≠ '.')).tail
    if a.all Char.isDigit && b.all Char.isDigit && (a ≠ [] || b ≠ []) then
      .ok (mkRat (digitsVal a * 10 ^ b.length + digitsVal b) (10 ^ b.length))
    else .error .valueError
  else .error .valueError

def lowerL (cs : List Char) : List Char := cs.map Char.toLower

def weekdayNames : List (List Char) :=
  ["monday", "tuesday", "wednesday", "thursday", "friday", "saturday", "sunday"].map
    String.toList

def monthNames : List (List Char) :=
  ["january", "february", "march", "april", "may", "june", "july", "august",
   "september", "october", "november", "december"].map String.toList

def isLeap (y : Nat) : Bool := (y % 4 = 0 && y % 100 ≠ 0) || y % 400 = 0

def daysInMonth (y m : Nat) : Nat :=
  if m = 2 then (if isLeap y then 29 else 28)
  else if m = 4 || m = 6 || m = 9 || m = 11 then 30
  else 31

/-- Strip a literal case-normalised name from the front. -/
def dropName (name cs : List Char) : Option (List Char) :=
  if name.isPrefixOf cs then some (cs.drop name.length) else none

def firstName (names : List (List Char)) (cs : List Char) : Option (Nat × List Char) :=
  match names with
  | [] => none
  | n :: rest =>
    match dropName n cs with
    | some tl => some (0, tl)
    | none => (firstName rest cs).map (fun p => (p.1 + 1, p.2))

/-- The day-of-month pattern of `strptime` (`3[01]|[12]\d|0[1-9]|[1-9]`):
a two-digit day 01–31 is preferred, otherwise a single digit 1–9. -/
def parseDay : List Char → Option (Nat × List Char)
  | a :: b :: rest =>
    if a.isDigit && b.isDigit then
      let v := (a.toNat - 48) * 10 + (b.toNat - 48)
      if 1 ≤ v && v ≤ 31 then some (v, rest)
      else if 1 ≤ a.toNat - 48 && a.toNat - 48 ≤ 9 then some (a.toNat - 48, b :: rest)
      else none
    else if a.isDigit && 1 ≤ a.toNat - 48 then some (a.toNat - 48, b :: rest)
    else none
  | [a] => if a.isDigit && 1 ≤ a.toNat - 48 then some (a.toNat - 48, []) else none
  | [] => none

def parseYear4 : List Char → Option (Nat × List Char)
  | a :: b :: c :: d :: rest =>
    if a.isDigit && b.isDigit && c.isDigit && d.isDigit then
      some (digitsVal [a, b, c, d], rest)
    else none
  | _ => none

/-- `datetime.strptime(s, "%A, %B %d, %Y")` followed by construction of the
`datetime` (which validates the calendar date; the weekday name is matched
but not cross-checked against the date, exactly as in CPython).  Returns
`(year, month, day)` or `none` for the `ValueError` the caller catches. -/
def strptimeAMdY (s : String) : Option (Nat × Nat × Nat) := do
  let cs := lowerL s.toList
  let (_, cs) ← firstName weekdayNames cs
  let cs ← dropName [',', ' '] cs
  let (mIdx, cs) ← firstName monthNames cs
  let cs ← dropName [' '] cs
  let (d, cs) ← parseDay cs
  let cs ← dropName [',', ' '] cs
  let (y, cs) ← parseYear4 cs
  if cs ≠ [] then none
  else
    let m := mIdx + 1
    if 1 ≤ y && d ≤ daysInMonth y m then some (y, m, d) else none

def pad2 (n : Nat) : String := if n < 10 then "0" ++ toString n else toString n

def pad4 (n : Nat) : String :=
  if n < 10 then "000" ++ toString n
  else if n < 100 then "00" ++ toString n
  else if n < 1000 then "0" ++ toString n
  else toString n

/-- `date_obj.strftime("%Y-%m-%d")`. -/
def fmtDate (ymd : Nat × Nat × Nat) : String :=
  pad4 ymd.1 ++ "-" ++ pad2 ymd.2.1 ++ "-" ++ pad2 ymd.2.2

/-- The metadata dictionary built by `parse_entry_metadata`: a field is
`none` exactly when the corresponding regex (or date parse) failed, so the
Python test `if not metadata` corresponds to all fields being `none`. -/
structure Metadata where
  date : Option String := none
  destination : Option String := none
  start_location : Option String := none
  miles_hiked : Option ℚ := none
  total_miles : Option ℚ := none
deriving DecidableEq, Repr

def Metadata.isEmpty (m : Metadata) : Bool :=
  m.date = none && m.destination = none && m.start_location = none &&
    m.miles_hiked = none && m.total_miles = none

def startLabel : List Char := "**Start Location:** ".toList
def milesLabel : List Char := "**Miles Today:** ".toList
def tripLabel : List Char := "**Trip Miles:** ".toList

/-- `parse_entry_metadata(entry_text)`.  The header regex populates
`destination` whenever it matches and `date` additionally when `strptime`
succeeds (its `ValueError` is caught); `float` on a malformed numeric
capture raises and that `ValueError` propagates to the caller. -/
def parse_entry_metadata (entry_text : String) : Except PyErr Metadata := do
  let cs := entry_text.toList
  let m : Metadata := {}
  let m :=
    match searchHeader cs with
    | some (g1, g2) =>
      let m := { m with destination := some ⟨stripL g2⟩ }
      match strptimeAMdY ⟨stripL g1⟩ with
      | some ymd => { m with date := some (fmtDate ymd) }
      | none => m
    | none => m
  let m :=
    match searchLabelLine startLabel cs with
    | some g => { m with start_location := some ⟨stripL g⟩ }
    | none => m
  let m ←
    match searchNumField milesLabel cs with
    | some run => do
      let v ← pyFloat run
      pure { m with miles_hiked := some v }
    | none => pure m
  let m ←
    match searchNumField tripLabel cs with
    | some run => do
      let v ← pyFloat run
      pure { m with total_miles := some v }
    | none => pure m
  pure m

/-- `get_entry_key(metadata)`: the f-string looks up `date`,
`start_location` and `destination` in that order and raises `KeyError`
at the first missing one. -/
def get_entry_key (m : Metadata) : Except PyErr String :=
  match m.date with
  | none => .error (.keyError "date")
  | some d =>
    match m.start_location with
    | none => .error (.keyError "start_location")
    | some s =>
      match m.destination with
      | none => .error (.keyError "destination")
      | some t => .ok (d ++ "_" ++ s ++ "_" ++ t)

instance {ε α : Type} [DecidableEq ε] [DecidableEq α] : DecidableEq (Except ε α) :=
  fun a b =>
    match a, b with
    | .ok x, .ok y => decidable_of_iff (x = y) (by simp)
    | .error x, .error y => decidable_of_iff (x = y) (by simp)
    | .ok _, .error _ => isFalse (by simp)
    | .error _, .ok _ => isFalse (by simp)

/-! ### Python dictionaries and the orchestrator state -/

/-- Insertion-ordered dictionary, as Python dicts behave. -/
abbrev Dict := List (String × String)

/-- Dictionary lookup. -/
def dget : Dict → String → Option String
  | [], _ => none
  | (k', v') :: rest, k => if k' = k then some v' else dget rest k

/-- Dictionary update: replaces in place when the key is present (keeping
its position, as Python dicts do), appends otherwise. -/
def dset : Dict → String → String → Dict
  | [], k, v => [(k, v)]
  | (k', v') :: rest, k, v =>
    if k' = k then (k, v) :: rest else (k', v') :: dset rest k v

/-- Ordered duplicate-free insertion, so the stored processed set is kept in
the `sorted(list(set))` form that `save_progress` serialises. -/
def insNat (i : Nat) : List Nat → List Nat
  | [] => [i]
  | j :: js =>
    if i = j then j :: js
    else if i < j then i :: j :: js
    else j :: insNat i js

/-- Observable events of a run, in program order: each `save_progress`
call (with its payload), each invocation of the injected generator, each
rate-limit sleep, each cache-file rewrite, the final output write, and the
progress-file deletion. -/
inductive Ev where
  | save (processed : List Nat) (texts : List String)
  | gen (md : Metadata) (kind : String)
  | sleep
  | cacheWrite (c : Dict)
  | outWrite (s : String)
  | progDelete
deriving DecidableEq, Repr

def Ev.isSave : Ev → Bool
  | .save _ _ => true
  | _ => false

def Ev.isGen : Ev → Bool
  | .gen _ _ => true
  | _ => false

/-- Loop state of `enhance_journal`: `processed_entries`,
`enhanced_entries`, `processed_entry_map`, the in-memory cache, and the
event trace so far. -/
structure St where
  processed : List Nat
  enhanced : List String
  emap : Dict
  cache : Dict
  trace : List Ev
deriving DecidableEq, Repr

/-- The injected `bedrock_client` together with run options.  A generator
result of `Except.error ()` models the client raising. -/
structure Config where
  gen : Metadata → String → Except Unit String
  mode : String
  hasCacheFile : Bool

def doSave (i : Nat) (txt : String) (st : St) : St :=
  let p := insNat i st.processed
  let e := st.enhanced ++ [txt]
  { st with processed := p, enhanced := e,
            trace := st.trace ++ [Ev.save p e] }

/-- One content-kind fetch (lines 247–295 of the source, one arm):
cached text is returned untouched; on a miss the generator is invoked,
a raised exception becomes the empty string, a non-empty result is put in
the cache (rewriting the cache file when one was given), and the
rate-limit sleep happens in every miss branch. -/
def fetchKind (cfg : Config) (md : Metadata) (key kind : String) (st : St) :
    String × St :=
  let ck := kind ++ "_" ++ key
  match dget st.cache ck with
  | some c => (c, st)
  | none =>
    let st := { st with trace := st.trace ++ [Ev.gen md kind] }
    match cfg.gen md kind with
    | .ok c =>
      let st :=
        if c ≠ "" then
          let c2 := dset st.cache ck c
          { st with cache := c2,
                    trace := st.trace ++
                      (if cfg.hasCacheFile then [Ev.cacheWrite c2] else []) }
        else st
      (c, { st with trace := st.trace ++ [Ev.sleep] })
    | .error _ => ("", { st with trace := st.trace ++ [Ev.sleep] })

/-- The generation path of one entry: the context arm followed by the
facts arm, each guarded by the mode test of the source
(`mode in ["both", "context"]` resp. `mode in ["both", "facts"]`), each
appending its labelled block only when the obtained text is non-empty. -/
def genPath (cfg : Config) (md : Metadata) (key e0 : String) (st : St) :
    String × St :=
  let q :=
    if cfg.mode = "both" || cfg.mode = "context" then
      let p := fetchKind cfg md key "context" st
      (if p.1 ≠ "" then e0 ++ "\n\nTrail Context: " ++ p.1 else e0, p.2)
    else (e0, st)
  if cfg.mode = "both" || cfg.mode = "facts" then
    let p := fetchKind cfg md key "facts" q.2
    (if p.1 ≠ "" then q.1 ++ "\n\nTrail Facts: " ++ p.1 else q.1, p.2)
  else q

/-- The body of the per-entry loop (lines 221–307).  Blank entries are
skipped; empty metadata gives a verbatim pass-through; a metadata record
that is non-empty but lacks one of the three key fields raises out of the
loop (the `KeyError` is outside the `try`); a resume-map hit replays the
stored text; otherwise the stripped entry is extended with the blocks of
the requested kinds. -/
def stepEntry (cfg : Config) (st : St) (i : Nat) (entry : String) :
    Except PyErr St :=
  if pyStrip entry = "" then .ok st
  else
    match parse_entry_metadata entry with
    | .error e => .error e
    | .ok md =>
      if md.isEmpty then .ok (doSave i entry st)
      else
        match get_entry_key md with
        | .error e => .error e
        | .ok key =>
          match dget st.emap key with
          | some txt => .ok (doSave i txt st)
          | none =>
            let p := genPath cfg md key (pyStrip entry) st
            .ok (doSave i p.1 { p.2 with emap := dset p.2.emap key p.1 })

/-- The loop over `enumerate(entries, 1)` starting at index `i`. -/
def loopFrom (cfg : Config) : Nat → List String → St → Except PyErr St
  | _, [], st => .ok st
  | i, e :: rest, st =>
    match stepEntry cfg st i e with
    | .error err => .error err
    | .ok st' => loopFrom cfg (i + 1) rest st'

/-- Lines 174–184: rebuild `processed_entry_map` from the loaded progress,
keyed by re-parsing each stored text; any exception (including a
`KeyError` from `get_entry_key`) is caught and that text skipped. -/
def buildMapStep (processed : List Nat) (m : Dict) (ie : Nat × String) : Dict :=
  if ie.1 ∈ processed then
    match parse_entry_metadata ie.2 with
    | .error _ => m
    | .ok md =>
      if md.isEmpty then m
      else
        match get_entry_key md with
        | .error _ => m
        | .ok k => dset m k ie.2
  else m

def buildMap (processed : List Nat) (texts : List String) : Dict :=
  ((texts.enum.map (fun p => (p.1 + 1, p.2))).foldl (buildMapStep processed) [])

def canonSet (l : List Nat) : List Nat := l.foldl (fun acc i => insNat i acc) []

/-- The state with which the per-entry loop starts: progress loaded when
`resume` is set, the resume map built from it, and everything discarded
again when the stored text count disagrees with the current entry count
(lines 213–218). -/
def initState (entries : List String) (progressFile : Option (List Nat × List String))
    (resume : Bool) (cache0 : Dict) : St :=
  let loaded := if resume then progressFile.getD ([], []) else ([], [])
  let processed0 := canonSet loaded.1
  let texts0 := loaded.2
  let emap0 := buildMap processed0 texts0
  if texts0 ≠ [] && texts0.length ≠ entries.length then
    ⟨[], [], [], cache0, []⟩
  else
    ⟨processed0, texts0, emap0, cache0, []⟩

structure RunResult where
  output : String
  outputList : List String
  trace : List Ev
  cache : Dict
deriving DecidableEq, Repr

instance : Inhabited RunResult := ⟨⟨"", [], [], []⟩⟩

/-- `enhance_journal` with an injected generator.  `progressFile` is the
progress file on disk (already deserialised; `none` when absent), `cache0`
the loaded cache dictionary.  After the loop the joined output is written
and the progress file — which exists at that point exactly when it existed
at the start or some `save_progress` ran — is deleted. -/
def enhance_journal (input : String) (progressFile : Option (List Nat × List String))
    (resume : Bool) (cache0 : Dict) (hasCacheFile : Bool)
    (gen : Metadata → String → Except Unit String) (mode : String) :
    Except PyErr RunResult :=
  let cfg : Config := ⟨gen, mode, hasCacheFile⟩
  let entries := splitSep input
  let st0 := initState entries progressFile resume cache0
  match loopFrom cfg 1 entries st0 with
  | .error e => .error e
  | .ok st =>
    let out := joinSep st.enhanced
    let tr := st.trace ++ [Ev.outWrite out]
    let tr :=
      if progressFile.isSome || st.trace.any Ev.isSave then tr ++ [Ev.progDelete]
      else tr
    .ok ⟨out, st.enhanced, tr, st.cache⟩

/-- Extract the successful result of a run (used to state closed witnesses). -/
def okOf (e : Except PyErr RunResult) : RunResult :=
  match e with
  | .ok r => r
  | .error _ => default

def savesOf (tr : List Ev) : List (List Nat × List String) :=
  tr.filterMap (fun e => match e with | .save p t => some (p, t) | _ => none)

def gensOf (tr : List Ev) : List (Metadata × String) :=
  tr.filterMap (fun e => match e with | .gen m k => some (m, k) | _ => none)

/-- Number of non-blank segments of a split. -/
def countNB (entries : List String) : Nat :=
  (entries.filter (fun e => pyStrip e ≠ "")).length

/-- Events the per-entry loop may emit besides `save`. -/
def benignEv : Ev → Bool
  | .gen _ _ => true
  | .sleep => true
  | .cacheWrite _ => true
  | _ => false

/-- Events other than the final output write and progress deletion. -/
def noWriteEv : Ev → Bool
  | .outWrite _ => false
  | .progDelete => false
  | _ => true

/-- An entry the loop can resolve without raising: blank, or parsed with
either empty metadata or a derivable entry key. -/
def entryOkB (e : String) : Bool :=
  pyStrip e = "" ||
    match parse_entry_metadata e with
    | .error _ => false
    | .ok md =>
      md.isEmpty ||
        match get_entry_key md with
        | .ok _ => true
        | .error _ => false

/-- The entry key an entry would be processed under, when it has one. -/
def keyOf (e : String) : Option String :=
  match parse_entry_metadata e with
  | .error _ => none
  | .ok md =>
    if md.isEmpty then none
    else
      match get_entry_key md with
      | .ok k => some k
      | .error _ => none

/-- Agreement of two caches on every key not derived from the entry key
`K` (the two derived cache keys are `context_K` and `facts_K`). -/
def CacheRel (K : String) (c c' : Dict) : Prop :=
  ∀ q, q ≠ "context_" ++ K → q ≠ "facts_" ++ K → dget c q = dget c' q

/-- The entry key `K` has left no trace in the state: no resume-map entry
and no cached content of either kind. -/
def KAbsent (K : String) (st : St) : Prop :=
  dget st.emap K = none ∧ dget st.cache ("context_" ++ K) = none ∧
    dget st.cache ("facts_" ++ K) = none

/-- Relation between the states of two runs that differ exactly at the
output position `p0`, where the first run holds the text `xf`: everything
agrees except the `p0`-th enhanced text, the resume-map entry of `K`, and
the two cached contents of `K`. -/
def RelK (K : String) (p0 : Nat) (xf : String) (st st' : St) : Prop :=
  st.processed = st'.processed ∧
  st.enhanced.length = st'.enhanced.length ∧
  (∀ j, j ≠ p0 → st.enhanced[j]? = st'.enhanced[j]?) ∧
  st.enhanced[p0]? = some xf ∧
  (∀ k, k ≠ K → dget st.emap k = dget st'.emap k) ∧
  CacheRel K st.cache st'.cache

/-- An entry that a given pre-populated cache fully covers: blank, or
empty metadata, or the cache holds both content kinds for its key. -/
def entrySafe (cache0 : Dict) (e : String) : Bool :=
  pyStrip e = "" ||
    match parse_entry_metadata e with
    | .error _ => false
    | .ok md =>
      md.isEmpty ||
        match get_entry_key md with
        | .error _ => false
        | .ok k =>
          (dget cache0 ("context_" ++ k)).isSome &&
            (dget cache0 ("facts_" ++ k)).isSome

/-! ### `load_progress` at the JSON level (for the deserialisation claim) -/

/-- A JSON value as `json.load` can produce it. -/
inductive JValue where
  | jnull
  | jnum (n : Int)
  | jstr (s : String)
  | jarr (xs : List JValue)
  | jobj (fs : List (String × JValue))

/-- Structural equality of JSON values (the equality Python sets use when
deduplicating the inputs considered here). -/
def JValue.beq : JValue → JValue → Bool
  | .jnull, .jnull => true
  | .jnum a, .jnum b => a == b
  | .jstr a, .jstr b => a == b
  | .jarr xs, .jarr ys => goL xs ys
  | .jobj xs, .jobj ys => goO xs ys
  | _, _ => false
where
  goL : List JValue → List JValue → Bool
    | [], [] => true
    | x :: xs, y :: ys => JValue.beq x y && goL xs ys
    | _, _ => false
  goO : List (String × JValue) → List (String × JValue) → Bool
    | [], [] => true
    | x :: xs, y :: ys => x.1 == y.1 && JValue.beq x.2 y.2 && goO xs ys
    | _, _ => false

/-- The progress file on disk: absent, text that is not valid JSON, or a
deserialised JSON value. -/
inductive PFile where
  | absent
  | invalid
  | json (v : JValue)

def jlookup (fs : List (String × JValue)) (k : String) : Option JValue :=
  (fs.find? (fun p => p.1 = k)).map (fun p => p.2)

/-- Python `set(x)`: iterating a list collects its (hashable) elements,
iterating a string collects its one-character strings, iterating a dict
collects its keys; numbers and null are not iterable, and unhashable
elements raise, all as `TypeError`. -/
def jdedup (xs : List JValue) : List JValue :=
  xs.foldl (fun acc x => if acc.any (fun y => y.beq x) then acc else acc ++ [x]) []

def pySet : JValue → Except PyErr (List JValue)
  | .jarr xs =>
    if xs.all (fun x => match x with | .jarr _ => false | .jobj _ => false | _ => true) then
      .ok (jdedup xs)
    else .error .typeError
  | .jstr s => .ok (jdedup (s.toList.map (fun c => JValue.jstr ⟨[c]⟩)))
  | .jobj fs => .ok (jdedup (fs.map (fun p => JValue.jstr p.1)))
  | _ => .error .typeError

/-- `load_progress(progress_file)` (lines 134–148): an absent file or a
`json.JSONDecodeError` / `KeyError` yields the empty state; but subscripting
a non-dict top-level value, or `set()` applied to a non-iterable or
unhashable-element value, raises `TypeError`, which the `except` clause
does not catch. -/
def load_progress : PFile → Except PyErr (List JValue × JValue)
  | .absent => .ok ([], .jarr [])
  | .invalid => .ok ([], .jarr [])
  | .json v =>
    match v with
    | .jobj fs =>
      match jlookup fs "processed_entries" with
      | none => .ok ([], .jarr [])
      | some p =>
        match pySet p with
        | .error e => .error e
        | .ok s =>
          match jlookup fs "enhanced_entries" with
          | none => .ok ([], .jarr [])
          | some e => .ok (s, e)
    | _ => .error .typeError

/-! ### Concrete fixtures -/

/-- A fully parsable entry: its header uses the literal three-character
delimiter the source regex expects. -/
def entryA : String := "# Monday, January 4, 2010 â€” B\n**Start Location:** C"

def entryB : String := "# Tuesday, January 5, 2010 â€” D\n**Start Location:** E"

/-- The enhanced text of `entryA` as a first run would have stored it. -/
def doneA : String := entryA ++ "\n\nTrail Context: X"

def inputAB : String := entryA ++ "\n---\n" ++ entryB

/-- An entry padded with leading whitespace, as splitting on `"\n---\n"`
produces for files whose separators are surrounded by blank lines. -/
def padEntry : String := "\n" ++ entryA

/-- The literal example of the spec and of `test_parse_entry_metadata`,
with a genuine em-dash (U+2014) in the header. -/
def litEntry : String :=
  "# Thursday, January 21, 2010 — Springer Mountain\n**Start Location:** Amicalola Falls\n**Miles Today:** 8.8\n**Trip Miles:** 8.8\n\nThis was a great day on the trail..."

/-- A generator stub that always succeeds. -/
def genG : Metadata → String → Except Unit String := fun _ _ => .ok "G"

/-- A generator stub that always raises. -/
def genRaise : Metadata → String → Except Unit String := fun _ _ => .error ()

/-- An input whose split has three segments, the middle one blank. -/
def inputAB3 : String := "A\n---\n\n---\nB"

def entryC : String := "# Wednesday, January 6, 2010 â€” F\n**Start Location:** E"

/-- A three-entry input with `entryB` in the middle. -/
def inputABC : String := entryA ++ "\n---\n" ++ entryB ++ "\n---\n" ++ entryC

/-- The metadata of `entryB`. -/
def mdB : Metadata :=
  { date := some "2010-01-05", destination := some "D", start_location := some "E" }

/-- A generator that raises exactly on the key of `entryB` and otherwise
behaves like `genG`. -/
def genKB : Metadata → String → Except Unit String :=
  fun md _ => if get_entry_key md = .ok "2010-01-05_E_D" then .error () else .ok "G"

/-- A cache holding both content kinds for both entry keys of `inputAB`. -/
def cacheFull : Dict :=
  [("context_2010-01-04_C_B", "CC"), ("facts_2010-01-04_C_B", "FF"),
   ("context_2010-01-05_E_D", "C2"), ("facts_2010-01-05_E_D", "F2")]

/-- Two metadata records with distinct key triples that collide under
`get_entry_key`. -/
def mdColl1 : Metadata :=
  { date := some "a_b", destination := some "d", start_location := some "c" }

def mdColl2 : Metadata :=
  { date := some "a", destination := some "d", start_location := some "b_c" }

end Enhance

namespace Enhance

/-! ### Claim theorems: concrete evaluations and counterexamples -/

/-- C1.  Given a progress file recording 1 of 2 entries as complete,
rerunning with resume enabled does not process only the remaining entry:
the stored-text count (1) differs from the entry count (2), so all resume
state is discarded and the generator is invoked for both entries (2 calls
in mode "context" instead of the 1 the claim requires).  The final output
does coincide with the from-scratch run, because the run restarted from
scratch. -/
theorem c1_resume_discarded_eval :
    (enhance_journal inputAB (some ([1], [doneA])) true [] false genG "context").map
        (fun r => (gensOf r.trace).length) = .ok 2 ∧
      (okOf (enhance_journal inputAB (some ([1], [doneA])) true [] false genG "context")).output =
        (okOf (enhance_journal inputAB none true [] false genG "context")).output := by
  decide

/-- C2.  An entry where only a mileage field parses has non-empty metadata
lacking `date`, so `enhance_journal` reaches `get_entry_key`, whose
`metadata['date']` lookup raises an uncaught `KeyError` instead of passing
the entry through. -/
theorem c2_partial_metadata_raises :
    enhance_journal "**Miles Today:** 8.8" none true [] false genG "both" =
      .error (.keyError "date") := by
  decide

/-- C3.  On the literal example (real em-dash U+2014 in the header, as in
the unit test), `parse_entry_metadata` does not return the full record:
the header regex contains the literal mojibake text `â€”`, so it never
matches and `date` and `destination` stay absent; only the start location
and the two mileage fields are populated. -/
theorem c3_literal_parse_eval :
    parse_entry_metadata litEntry =
      .ok { date := none, destination := none,
            start_location := some "Amicalola Falls",
            miles_hiked := some (mkRat 44 5),
            total_miles := some (mkRat 44 5) } := by
  decide

/-- Supporting fact: the same entry with the three-character mojibake
delimiter in place of the em-dash parses completely, which is the input
shape the source regex was written against. -/
theorem parse_mojibake_header_full :
    parse_entry_metadata ("# Thursday, January 21, 2010 â€” Springer Mountain\n**Start Location:** Amicalola Falls") =
      .ok { date := some "2010-01-21", destination := some "Springer Mountain",
            start_location := some "Amicalola Falls" } := by
  decide

/-- C4 counterexample.  For an entry with leading whitespace whose
generator raises, the run completes but the output entry is the
whitespace-stripped text, not the original text: the generation path
appends `entry.strip()`, unlike the parse-failure pass-through. -/
theorem c4_counterexample :
    (enhance_journal padEntry none true [] false genRaise "both").map RunResult.output =
        .ok (pyStrip padEntry) ∧ pyStrip padEntry ≠ padEntry := by
  decide

/-- C5 counterexample.  An input whose single entry has partial metadata
(no enrichable entry key exists, so the empty cache is vacuously
pre-populated for every enrichable key) makes the run raise `KeyError`
instead of producing any output file, so two runs do not produce
byte-identical outputs. -/
theorem c5_counterexample :
    enhance_journal "**Start Location:** X" none true [] false genG "both" =
      .error (.keyError "date") := by
  decide

/-- C6 counterexample.  A progress file whose stored text list is empty
(count 0, different from the 1 entry the input splits into) does not have
its processed set discarded: the reset guard `if enhanced_entries and ...`
is skipped, and the first save of the run records the stale ordinal 5
together with the fresh one, unlike a fresh run. -/
theorem c6_counterexample :
    (enhance_journal "A" (some ([5], [])) true [] false genG "both").map
        (fun r => savesOf r.trace) ≠
      (enhance_journal "A" none true [] false genG "both").map
        (fun r => savesOf r.trace) := by
  decide

/-- C8 counterexample.  Content that deserialises to a JSON array (valid
JSON, wrong shape): `progress_data['processed_entries']` on a list raises
`TypeError`, which the `except (JSONDecodeError, KeyError)` clause does not
catch, so `load_progress` raises instead of returning the empty state. -/
theorem c8_counterexample :
    load_progress (.json (.jarr [])) = .error .typeError := rfl

/-- C9 counterexample.  Two metadata records with distinct
(date, start, destination) triples produce the same key, because the
underscore separator also occurs inside the fields:
`"a_b" / "c" / "d"` and `"a" / "b_c" / "d"` both map to `"a_b_c_d"`. -/
theorem c9_counterexample :
    get_entry_key mdColl1 = get_entry_key mdColl2 ∧ mdColl1 ≠ mdColl2 := by
  decide

/-- C10 counterexample.  For the input whose split is a single blank
segment, the output file does not contain fewer segments than the input:
the blank segment is dropped, the output is the empty string, and both
input and output split into exactly one (empty) segment. -/
theorem c10_counterexample :
    (enhance_journal "" none true [] false genG "both").map
        (fun r => (splitSep r.output).length) = .ok (splitSep "").length ∧
      (splitSep "").length = 1 ∧ pyStrip "" = "" := by
  decide

end Enhance

namespace Enhance

/-! ### Basic lemmas about the embedding -/

theorem savesOf_append (a b : List Ev) : savesOf (a ++ b) = savesOf a ++ savesOf b :=
  List.filterMap_append a b _

theorem gensOf_append (a b : List Ev) : gensOf (a ++ b) = gensOf a ++ gensOf b :=
  List.filterMap_append a b _

theorem savesOf_benign : ∀ (l : List Ev), l.all benignEv = true → savesOf l = []
  | [], _ => rfl
  | e :: rest, h => by
    rw [List.all_cons, Bool.and_eq_true] at h
    cases e with
    | save p t => simp [benignEv] at h
    | outWrite s => simp [benignEv] at h
    | progDelete => simp [benignEv] at h
    | gen m k => simpa [savesOf, List.filterMap_cons] using savesOf_benign rest h.2
    | sleep => simpa [savesOf, List.filterMap_cons] using savesOf_benign rest h.2
    | cacheWrite c => simpa [savesOf, List.filterMap_cons] using savesOf_benign rest h.2

theorem benign_noWrite : ∀ (l : List Ev), l.all benignEv = true → l.all noWriteEv = true
  | [], _ => rfl
  | e :: rest, h => by
    rw [List.all_cons, Bool.and_eq_true] at h ⊢
    refine ⟨?_, benign_noWrite rest h.2⟩
    cases e <;> simp_all [benignEv, noWriteEv]

theorem dget_dset_self : ∀ (d : Dict) (k v : String), dget (dset d k v) k = some v
  | [], k, v => by simp [dget, dset]
  | (a, b) :: rest, k, v => by
    by_cases h : a = k
    · simp [dget, dset, h]
    · simp [dget, dset, h, dget_dset_self rest k v]

theorem dget_dset_ne : ∀ (d : Dict) (k v k' : String), k' ≠ k →
    dget (dset d k v) k' = dget d k'
  | [], k, v, k', h => by
    have h2 : ¬(k = k') := fun hh => h hh.symm
    simp [dget, dset, h2]
  | (a, b) :: rest, k, v, k', h => by
    by_cases h1 : a = k
    · subst h1
      have h2 : ¬(a = k') := fun hh => h hh.symm
      simp [dget, dset, h2]
    · simp [dget, dset, h1, dget_dset_ne rest k v k' h]

theorem string_data_inj {a b : String} (h : a.data = b.data) : a = b :=
  String.ext h

theorem append_left_cancel_str {p a b : String} (h : p ++ a = p ++ b) : a = b := by
  apply string_data_inj
  have := congrArg String.data h
  rw [String.data_append, String.data_append] at this
  exact List.append_cancel_left this

/-- Splitting a character list at a separator character that occurs in
neither prefix is unambiguous. -/
theorem append_sep_inj : ∀ (a c b d : List Char), '_' ∉ a → '_' ∉ c →
    a ++ '_' :: b = c ++ '_' :: d → a = c ∧ b = d
  | [], [], b, d, _, _, h => by simpa using h
  | [], x :: xs, b, d, _, hc, h => by
    simp only [List.nil_append, List.cons_append, List.cons.injEq] at h
    have hm : ('_' : Char) ∈ x :: xs := by
      rw [h.1]; exact List.mem_cons_self x xs
    exact absurd hm hc
  | x :: xs, [], b, d, ha, _, h => by
    simp only [List.nil_append, List.cons_append, List.cons.injEq] at h
    have hm : ('_' : Char) ∈ x :: xs := by
      rw [← h.1]; exact List.mem_cons_self x xs
    exact absurd hm ha
  | x :: xs, y :: ys, b, d, ha, hc, h => by
    simp only [List.cons_append, List.cons.injEq] at h
    obtain ⟨h1, h2⟩ := h
    obtain ⟨h3, h4⟩ := append_sep_inj xs ys b d
      (fun hm => ha (List.mem_cons_of_mem x hm))
      (fun hm => hc (List.mem_cons_of_mem y hm)) h2
    exact ⟨by rw [h1, h3], h4⟩

end Enhance

namespace Enhance

theorem countNB_nil : countNB [] = 0 := rfl

theorem countNB_cons (e : String) (rest : List String) :
    countNB (e :: rest) = (if pyStrip e = "" then 0 else 1) + countNB rest := by
  by_cases h : pyStrip e = "" <;> simp [countNB, List.filter_cons, h] <;> omega

/-- `fetchKind` changes only the cache and the trace, and appends only
benign (generator / sleep / cache-write) events. -/
theorem fetchKind_spec (cfg : Config) (md : Metadata) (key kind : String) (st : St) :
    (fetchKind cfg md key kind st).2.processed = st.processed ∧
    (fetchKind cfg md key kind st).2.enhanced = st.enhanced ∧
    (fetchKind cfg md key kind st).2.emap = st.emap ∧
    ∃ Δ, (fetchKind cfg md key kind st).2.trace = st.trace ++ Δ ∧
      Δ.all benignEv = true := by
  rcases hc : dget st.cache (kind ++ "_" ++ key) with _ | c
  · rcases hg : cfg.gen md kind with u | c
    · exact ⟨by simp [fetchKind, hc, hg], by simp [fetchKind, hc, hg],
        by simp [fetchKind, hc, hg],
        ⟨[Ev.gen md kind, Ev.sleep], by simp [fetchKind, hc, hg, benignEv], rfl⟩⟩
    · by_cases hne : c = ""
      · exact ⟨by simp [fetchKind, hc, hg, hne], by simp [fetchKind, hc, hg, hne],
          by simp [fetchKind, hc, hg, hne],
          ⟨[Ev.gen md kind, Ev.sleep], by simp [fetchKind, hc, hg, hne, benignEv],
            rfl⟩⟩
      · by_cases hcf : cfg.hasCacheFile
        · refine ⟨by simp [fetchKind, hc, hg, hne, hcf], by simp [fetchKind, hc, hg, hne, hcf],
            by simp [fetchKind, hc, hg, hne, hcf],
            ⟨[Ev.gen md kind,
              Ev.cacheWrite (dset st.cache (kind ++ "_" ++ key) c), Ev.sleep],
              by simp [fetchKind, hc, hg, hne, hcf, benignEv], by simp [benignEv]⟩⟩
        · refine ⟨by simp [fetchKind, hc, hg, hne, hcf], by simp [fetchKind, hc, hg, hne, hcf],
            by simp [fetchKind, hc, hg, hne, hcf],
            ⟨[Ev.gen md kind, Ev.sleep],
              by simp [fetchKind, hc, hg, hne, hcf, benignEv], rfl⟩⟩
  · exact ⟨by simp [fetchKind, hc], by simp [fetchKind, hc], by simp [fetchKind, hc],
      ⟨[], by simp [fetchKind, hc], rfl⟩⟩

/-- `genPath` likewise changes only the cache and the trace. -/
theorem genPath_spec (cfg : Config) (md : Metadata) (key e0 : String) (st : St) :
    (genPath cfg md key e0 st).2.processed = st.processed ∧
    (genPath cfg md key e0 st).2.enhanced = st.enhanced ∧
    (genPath cfg md key e0 st).2.emap = st.emap ∧
    ∃ Δ, (genPath cfg md key e0 st).2.trace = st.trace ++ Δ ∧
      Δ.all benignEv = true := by
  by_cases h1 : (cfg.mode = "both" || cfg.mode = "context") = true
  · by_cases h2 : (cfg.mode = "both" || cfg.mode = "facts") = true
    · obtain ⟨p1, e1, m1, Δ1, t1, b1⟩ := fetchKind_spec cfg md key "context" st
      obtain ⟨p2, e2, m2, Δ2, t2, b2⟩ :=
        fetchKind_spec cfg md key "facts" (fetchKind cfg md key "context" st).2
      refine ⟨?_, ?_, ?_, ⟨Δ1 ++ Δ2, ?_, ?_⟩⟩ <;>
        simp [genPath, h1, h2, p1, p2, e1, e2, m1, m2, t1, t2, b1, b2,
          List.append_assoc, List.all_append]
    · obtain ⟨p1, e1, m1, Δ1, t1, b1⟩ := fetchKind_spec cfg md key "context" st
      refine ⟨?_, ?_, ?_, ⟨Δ1, ?_, b1⟩⟩ <;> simp [genPath, h1, h2, p1, e1, m1, t1]
  · by_cases h2 : (cfg.mode = "both" || cfg.mode = "facts") = true
    · obtain ⟨p2, e2, m2, Δ2, t2, b2⟩ := fetchKind_spec cfg md key "facts" st
      refine ⟨?_, ?_, ?_, ⟨Δ2, ?_, b2⟩⟩ <;> simp [genPath, h1, h2, p2, e2, m2, t2]
    · exact ⟨by simp [genPath, h1, h2], by simp [genPath, h1, h2],
        by simp [genPath, h1, h2], ⟨[], by simp [genPath, h1, h2], rfl⟩⟩

end Enhance

namespace Enhance

/-- A successful `stepEntry` either skipped a blank entry, or resolved a
non-blank one: appended exactly one text, marked the ordinal processed,
and emitted benign events followed by exactly one save of the new state. -/
theorem stepEntry_ok_cases (cfg : Config) (st : St) (i : Nat) (e : String) (t : St)
    (h : stepEntry cfg st i e = .ok t) :
    (pyStrip e = "" ∧ t = st) ∨
    (pyStrip e ≠ "" ∧ ∃ x Δ, Δ.all benignEv = true ∧
      t.processed = insNat i st.processed ∧
      t.enhanced = st.enhanced ++ [x] ∧
      t.trace = st.trace ++ Δ ++
        [Ev.save (insNat i st.processed) (st.enhanced ++ [x])]) := by
  by_cases hb : pyStrip e = ""
  · left
    refine ⟨hb, ?_⟩
    have : Except.ok (ε := PyErr) st = .ok t := by simpa [stepEntry, hb] using h
    simpa using this.symm
  · right
    refine ⟨hb, ?_⟩
    rw [stepEntry, if_neg hb] at h
    split at h
    · exact absurd h (by simp)
    · rename_i md hp
      split at h
      · have ht : t = doSave i e st := by simpa using h.symm
        exact ⟨e, [], rfl, by simp [ht, doSave], by simp [ht, doSave],
          by simp [ht, doSave]⟩
      · split at h
        · exact absurd h (by simp)
        · rename_i key hk
          split at h
          · rename_i txt hm
            have ht : t = doSave i txt st := by simpa using h.symm
            exact ⟨txt, [], rfl, by simp [ht, doSave], by simp [ht, doSave],
              by simp [ht, doSave]⟩
          · obtain ⟨hpr, hen, hmm, Δ, htr, hben⟩ :=
              genPath_spec cfg md key (pyStrip e) st
            set p := genPath cfg md key (pyStrip e) st with hpdef
            have ht : t = doSave i p.1 { p.2 with emap := dset p.2.emap key p.1 } := by
              simpa using h.symm
            refine ⟨p.1, Δ, hben, ?_, ?_, ?_⟩
            · simp [ht, doSave, hpr]
            · simp [ht, doSave, hen]
            · simp [ht, doSave, htr, hpr, hen, List.append_assoc]

/-- Master structure of a successful loop: the trace is extended only with
loop events (no output write, no progress deletion), one text is appended
per non-blank entry, and one save per non-blank entry is emitted whose
stored text list has grown by exactly the entries resolved so far. -/
theorem loopFrom_spec (cfg : Config) : ∀ (es : List String) (i : Nat) (st t : St),
    loopFrom cfg i es st = .ok t →
    (∃ Δ, t.trace = st.trace ++ Δ ∧ Δ.all noWriteEv = true) ∧
    t.enhanced.length = st.enhanced.length + countNB es ∧
    ∃ ns, savesOf t.trace = savesOf st.trace ++ ns ∧ ns.length = countNB es ∧
      (∀ k s, ns[k]? = some s → s.2.length = st.enhanced.length + k + 1)
  | [], i, st, t, h => by
    have ht : t = st := by simpa [loopFrom] using h.symm
    subst ht
    exact ⟨⟨[], by simp, rfl⟩, by simp [countNB_nil], ⟨[], by simp, by simp [countNB_nil],
      by intro k s hk; simp at hk⟩⟩
  | e :: rest, i, st, t, h => by
    rw [loopFrom] at h
    rcases hs : stepEntry cfg st i e with err | st'
    · rw [hs] at h; exact absurd h (by simp)
    · rw [hs] at h
      obtain ⟨⟨Δr, htr, hnwr⟩, hlen, ns', hsv, hnslen, hns⟩ :=
        loopFrom_spec cfg rest (i + 1) st' t h
      rcases stepEntry_ok_cases cfg st i e st' hs with ⟨hbl, hst⟩ | ⟨hbl, x, Δ, hben, hpr, hen, htr'⟩
      · subst hst
        refine ⟨⟨Δr, htr, hnwr⟩, ?_, ⟨ns', hsv, ?_, hns⟩⟩
        · rw [hlen, countNB_cons, if_pos hbl]; omega
        · rw [hnslen, countNB_cons, if_pos hbl]; omega
      · have hsv' : savesOf st'.trace =
            savesOf st.trace ++ [(insNat i st.processed, st.enhanced ++ [x])] := by
          rw [htr', savesOf_append, savesOf_append, savesOf_benign Δ hben]
          simp [savesOf]
        refine ⟨⟨Δ ++ [Ev.save (insNat i st.processed) (st.enhanced ++ [x])] ++ Δr,
            ?_, ?_⟩, ?_, ?_⟩
        · rw [htr, htr']; simp [List.append_assoc]
        · simp only [List.all_append, Bool.and_eq_true]
          exact ⟨⟨benign_noWrite Δ hben, by simp [noWriteEv]⟩, hnwr⟩
        · rw [hlen, hen, countNB_cons, if_neg hbl]
          simp [Nat.add_comm, Nat.add_assoc, Nat.add_left_comm]
        · refine ⟨(insNat i st.processed, st.enhanced ++ [x]) :: ns', ?_, ?_, ?_⟩
          · rw [hsv, hsv']; simp
          · rw [countNB_cons, if_neg hbl]; simp [hnslen]; omega
          · intro k s hk
            cases k with
            | zero =>
              simp at hk
              rw [← hk]; simp
            | succ k' =>
              simp at hk
              have := hns k' s hk
              rw [hen] at this
              simpa [Nat.add_assoc, Nat.add_comm, Nat.add_left_comm] using this

end Enhance

namespace Enhance

theorem initState_trace (entries : List String)
    (pf : Option (List Nat × List String)) (resume : Bool) (cache0 : Dict) :
    (initState entries pf resume cache0).trace = [] := by
  rw [initState]
  split <;> split <;> rfl

theorem initState_none (entries : List String) (resume : Bool) (cache0 : Dict) :
    initState entries none resume cache0 = ⟨[], [], [], cache0, []⟩ := by
  cases resume <;> rfl

/-- Decomposition of a successful `enhance_journal` run into its loop part
and its postlude (output write, then conditional progress deletion). -/
theorem run_ok_spec (input : String) (pf : Option (List Nat × List String))
    (resume : Bool) (cache0 : Dict) (hasCF : Bool)
    (g : Metadata → String → Except Unit String) (mode : String) (r : RunResult)
    (h : enhance_journal input pf resume cache0 hasCF g mode = .ok r) :
    ∃ st, loopFrom ⟨g, mode, hasCF⟩ 1 (splitSep input)
        (initState (splitSep input) pf resume cache0) = .ok st ∧
      r.output = joinSep st.enhanced ∧ r.outputList = st.enhanced ∧
      r.cache = st.cache ∧ savesOf r.trace = savesOf st.trace ∧
      r.trace = st.trace ++ [Ev.outWrite r.output] ++
        (if pf.isSome || st.trace.any Ev.isSave then [Ev.progDelete] else []) := by
  rw [enhance_journal] at h
  split at h
  · exact absurd h (by simp)
  · rename_i st hloop
    refine ⟨st, hloop, ?_⟩
    have hr : r = ⟨joinSep st.enhanced,
        st.enhanced,
        (if pf.isSome || st.trace.any Ev.isSave then
          st.trace ++ [Ev.outWrite (joinSep st.enhanced)] ++ [Ev.progDelete]
         else st.trace ++ [Ev.outWrite (joinSep st.enhanced)]),
        st.cache⟩ := by
      by_cases hc : (pf.isSome || st.trace.any Ev.isSave) = true
      · simpa [hc, List.append_assoc] using h.symm
      · simpa [hc] using h.symm
    by_cases hc : (pf.isSome || st.trace.any Ev.isSave) = true
    · refine ⟨by simp [hr, hc], by simp [hr, hc], by simp [hr, hc], ?_, ?_⟩
      · simp [hr, hc, savesOf_append, savesOf]
      · simp [hr, hc, List.append_assoc]
    · refine ⟨by simp [hr, hc], by simp [hr, hc], by simp [hr, hc], ?_, ?_⟩
      · simp [hr, hc, savesOf_append, savesOf]
      · simp [hr, hc]

end Enhance

namespace Enhance

/-- C7.  In every completed run, `save_progress` runs exactly once per
non-blank entry (so the k-th save already holds the texts of the first
k resolved entries on top of any kept resume texts — at most one entry of
work is ever unsained by the latest save), and the trace ends with the
output write followed (at most) by the progress-file deletion: the
progress file is deleted only after the final output has been written. -/
theorem c7_progress_discipline (input : String)
    (pf : Option (List Nat × List String)) (resume : Bool)
    (cache0 : Dict) (hasCF : Bool) (g : Metadata → String → Except Unit String)
    (mode : String) (r : RunResult)
    (h : enhance_journal input pf resume cache0 hasCF g mode = .ok r) :
    (savesOf r.trace).length = countNB (splitSep input) ∧
    (∀ k s, (savesOf r.trace)[k]? = some s →
      s.2.length =
        (initState (splitSep input) pf resume cache0).enhanced.length + k + 1) ∧
    ∃ body tail, r.trace = body ++ [Ev.outWrite r.output] ++ tail ∧
      body.all noWriteEv = true ∧ (tail = [] ∨ tail = [Ev.progDelete]) := by
  obtain ⟨st, hloop, hout, holist, hcache, hsaves, htrace⟩ :=
    run_ok_spec input pf resume cache0 hasCF g mode r h
  obtain ⟨⟨Δ, htr, hnw⟩, hlen, ns, hsv, hnslen, hns⟩ :=
    loopFrom_spec _ (splitSep input) 1 _ st hloop
  rw [initState_trace] at htr
  have hsv0 : savesOf (initState (splitSep input) pf resume cache0).trace = [] := by
    rw [initState_trace]; rfl
  rw [hsv0] at hsv
  refine ⟨?_, ?_, st.trace, _, htrace, ?_, ?_⟩
  · rw [hsaves, hsv]; simpa using hnslen
  · intro k s hk
    rw [hsaves, hsv] at hk
    simpa using hns k s (by simpa using hk)
  · rw [htr]; simpa using hnw
  · split <;> simp

theorem c7_progress_discipline_witness :
    (savesOf (okOf (enhance_journal "A" none true [] false genG "both")).trace).length =
      countNB (splitSep "A") :=
  (c7_progress_discipline "A" none true [] false genG "both"
    (okOf (enhance_journal "A" none true [] false genG "both")) (by decide)).1

/-- C10 (amended).  For an input with at least one blank and one non-blank
segment and no progress file, blank segments are dropped: the output list
holds exactly one resolution per non-blank segment, hence strictly fewer
segments than the input split; and every progress save records strictly
fewer texts than the input split count, so a later resume of the same
input can never find matching counts. -/
theorem c10_blank_segments (input : String) (cache0 : Dict) (hasCF : Bool)
    (g : Metadata → String → Except Unit String) (mode : String) (r : RunResult)
    (h : enhance_journal input none true cache0 hasCF g mode = .ok r)
    (hblank : ∃ e ∈ splitSep input, pyStrip e = "") :
    r.outputList.length = countNB (splitSep input) ∧
    countNB (splitSep input) < (splitSep input).length ∧
    ∀ p ∈ savesOf r.trace, p.2.length ≤ countNB (splitSep input) := by
  obtain ⟨st, hloop, hout, holist, hcache, hsaves, htrace⟩ :=
    run_ok_spec input none true cache0 hasCF g mode r h
  obtain ⟨⟨Δ, htr, hnw⟩, hlen, ns, hsv, hnslen, hns⟩ :=
    loopFrom_spec _ (splitSep input) 1 _ st hloop
  rw [initState_none] at hloop hlen hsv hns
  refine ⟨?_, ?_, ?_⟩
  · rw [holist, hlen]; simp
  · rw [countNB]
    rw [List.length_filter_lt_length_iff_exists]
    obtain ⟨e, hmem, hbl⟩ := hblank
    exact ⟨e, hmem, by simp [hbl]⟩
  · intro p hp
    rw [hsaves, hsv] at hp
    simp only [savesOf] at hp
    have hp' : p ∈ ns := by simpa using hp
    obtain ⟨k, hk⟩ := List.mem_iff_getElem?.mp hp'
    have := hns k p hk
    have hklt : k < ns.length := by
      exact List.getElem?_eq_some_iff.mp hk |>.1
    simp at this
    omega

theorem c10_blank_segments_witness :
    (okOf (enhance_journal inputAB3 none true [] false genG "both")).outputList.length =
        countNB (splitSep inputAB3) ∧
      countNB (splitSep inputAB3) < (splitSep inputAB3).length :=
  ⟨(c10_blank_segments inputAB3 [] false genG "both"
      (okOf (enhance_journal inputAB3 none true [] false genG "both")) (by decide)
      (by decide)).1,
   (c10_blank_segments inputAB3 [] false genG "both"
      (okOf (enhance_journal inputAB3 none true [] false genG "both")) (by decide)
      (by decide)).2.1⟩

end Enhance

namespace Enhance

theorem any_isSave_of_savesOf_ne : ∀ (l : List Ev), savesOf l ≠ [] →
    l.any Ev.isSave = true
  | [], h => absurd rfl h
  | e :: rest, h => by
    cases e with
    | save p t => simp [Ev.isSave]
    | gen m k =>
      simp only [List.any_cons, Ev.isSave, Bool.false_or]
      exact any_isSave_of_savesOf_ne rest (by simpa [savesOf, List.filterMap_cons] using h)
    | sleep =>
      simp only [List.any_cons, Ev.isSave, Bool.false_or]
      exact any_isSave_of_savesOf_ne rest (by simpa [savesOf, List.filterMap_cons] using h)
    | cacheWrite c =>
      simp only [List.any_cons, Ev.isSave, Bool.false_or]
      exact any_isSave_of_savesOf_ne rest (by simpa [savesOf, List.filterMap_cons] using h)
    | outWrite s =>
      simp only [List.any_cons, Ev.isSave, Bool.false_or]
      exact any_isSave_of_savesOf_ne rest (by simpa [savesOf, List.filterMap_cons] using h)
    | progDelete =>
      simp only [List.any_cons, Ev.isSave, Bool.false_or]
      exact any_isSave_of_savesOf_ne rest (by simpa [savesOf, List.filterMap_cons] using h)

theorem initState_mismatch (entries : List String) (procs : List Nat)
    (texts : List String) (cache0 : Dict) (hne : texts ≠ [])
    (hlen : texts.length ≠ entries.length) :
    initState entries (some (procs, texts)) true cache0 = ⟨[], [], [], cache0, []⟩ := by
  rw [initState]
  simp [hne, hlen]

/-- C6 (amended).  When the loaded progress has a non-empty stored text
list whose count disagrees with the current entry count, all resume state
is discarded and (for an input with at least one non-blank entry, so that
both runs reach a save and hence both delete a progress file at the end)
the run is indistinguishable from a fresh one, without raising. -/
theorem c6_mismatch_reset (input : String) (procs : List Nat) (texts : List String)
    (cache0 : Dict) (hasCF : Bool) (g : Metadata → String → Except Unit String)
    (mode : String)
    (hne : texts ≠ []) (hlen : texts.length ≠ (splitSep input).length)
    (hnb : countNB (splitSep input) ≠ 0) :
    enhance_journal input (some (procs, texts)) true cache0 hasCF g mode =
      enhance_journal input none true cache0 hasCF g mode := by
  have hinit : initState (splitSep input) (some (procs, texts)) true cache0 =
      initState (splitSep input) none true cache0 := by
    rw [initState_mismatch _ procs _ _ hne hlen, initState_none]
  rw [enhance_journal, enhance_journal, hinit]
  rcases hl : loopFrom ⟨g, mode, hasCF⟩ 1 (splitSep input)
      (initState (splitSep input) none true cache0) with e | st
  · simp
  · obtain ⟨_, _, ns, hsv, hnslen, _⟩ := loopFrom_spec _ _ _ _ _ hl
    have hns_ne : ns ≠ [] := by
      intro hn
      rw [hn] at hnslen
      exact hnb hnslen.symm
    have hsave : st.trace.any Ev.isSave = true := by
      apply any_isSave_of_savesOf_ne
      rw [hsv, initState_trace]
      simpa [savesOf] using hns_ne
    simp [hsave]

theorem c6_mismatch_reset_witness :
    enhance_journal "A" (some ([1], ["x", "y"])) true [] false genG "both" =
      enhance_journal "A" none true [] false genG "both" :=
  c6_mismatch_reset "A" [1] ["x", "y"] [] false genG "both" (by decide) (by decide)
    (by decide)

end Enhance

namespace Enhance

/-- When both content kinds of an entry key are cached, the generation
path returns without touching the state at all: no generator invocation,
no sleep, no cache write. -/
theorem genPath_cachehit (cfg : Config) (md : Metadata) (key e0 : String) (st : St)
    (hc : (dget st.cache ("context_" ++ key)).isSome = true)
    (hf : (dget st.cache ("facts_" ++ key)).isSome = true) :
    (genPath cfg md key e0 st).2 = st := by
  obtain ⟨c, hcc⟩ := Option.isSome_iff_exists.mp hc
  obtain ⟨f, hff⟩ := Option.isSome_iff_exists.mp hf
  by_cases h1 : (cfg.mode = "both" || cfg.mode = "context") = true <;>
    by_cases h2 : (cfg.mode = "both" || cfg.mode = "facts") = true <;>
      simp [genPath, fetchKind, hcc, hff, h1, h2]

/-- Loop invariant for a fully pre-populated cache: every entry resolves,
the cache is never modified, and no generator event is emitted. -/
theorem loopFrom_cachehit (g : Metadata → String → Except Unit String)
    (mode : String) (hasCF : Bool) (cache0 : Dict) :
    ∀ (es : List String) (i : Nat) (st : St),
    st.cache = cache0 →
    (∀ e ∈ es, entrySafe cache0 e = true) →
    ∃ t, loopFrom ⟨g, mode, hasCF⟩ i es st = .ok t ∧ t.cache = cache0 ∧
      gensOf t.trace = gensOf st.trace
  | [], i, st, hcash, _ => ⟨st, rfl, hcash, rfl⟩
  | e :: rest, i, st, hcash, hsafe => by
    have hse := hsafe e (List.mem_cons_self e rest)
    have hrest : ∀ x ∈ rest, entrySafe cache0 x = true :=
      fun x hx => hsafe x (List.mem_cons_of_mem e hx)
    by_cases hb : pyStrip e = ""
    · obtain ⟨t, hl, hc, hg⟩ := loopFrom_cachehit g mode hasCF cache0 rest (i + 1) st hcash hrest
      exact ⟨t, by simpa [loopFrom, stepEntry, hb] using hl, hc, hg⟩
    · rw [entrySafe, Bool.or_eq_true] at hse
      rcases hse with hbe | hse
      · exact absurd (of_decide_eq_true hbe) hb
      rcases hp : parse_entry_metadata e with err | md
      · rw [hp] at hse; simp at hse
      · rw [hp] at hse
        by_cases hemp : md.isEmpty
        · -- pass-through
          obtain ⟨t, hl, hc, hg⟩ := loopFrom_cachehit g mode hasCF cache0 rest (i + 1)
            (doSave i e st) (by simp [doSave, hcash])
            hrest
          refine ⟨t, ?_, hc, ?_⟩
          · rw [loopFrom]
            have hstep : stepEntry ⟨g, mode, hasCF⟩ st i e = .ok (doSave i e st) := by
              rw [stepEntry, if_neg hb, hp]
              simp [hemp]
            rw [hstep]
            exact hl
          · rw [hg]; simp [doSave, gensOf_append, gensOf]
        · have hse' : (match get_entry_key md with
              | .error _ => false
              | .ok k => (dget cache0 ("context_" ++ k)).isSome &&
                  (dget cache0 ("facts_" ++ k)).isSome) = true := by
            rw [Bool.or_eq_true] at hse
            rcases hse with h' | h'
            · exact absurd h' (by simpa using hemp)
            · exact h'
          rcases hk : get_entry_key md with err | key
          · rw [hk] at hse'; simp at hse'
          · rw [hk] at hse'
            rw [Bool.and_eq_true] at hse'
            rcases hm : dget st.emap key with _ | txt
            · -- generation path, both kinds cached
              have hgp : (genPath ⟨g, mode, hasCF⟩ md key (pyStrip e) st).2 = st :=
                genPath_cachehit _ md key _ st (by rw [hcash]; exact hse'.1)
                  (by rw [hcash]; exact hse'.2)
              set p := genPath ⟨g, mode, hasCF⟩ md key (pyStrip e) st with hpdef
              obtain ⟨t, hl, hc, hg⟩ := loopFrom_cachehit g mode hasCF cache0 rest (i + 1)
                (doSave i p.1 { p.2 with emap := dset p.2.emap key p.1 })
                (by simp [doSave, hgp, hcash]) hrest
              refine ⟨t, ?_, hc, ?_⟩
              · rw [loopFrom]
                have hstep : stepEntry ⟨g, mode, hasCF⟩ st i e =
                    .ok (doSave i p.1 { p.2 with emap := dset p.2.emap key p.1 }) := by
                  rw [stepEntry, if_neg hb, hp]
                  simp only [hemp, Bool.false_eq_true, if_false, hk, hm]
                rw [hstep]
                exact hl
              · rw [hg]; simp [doSave, hgp, gensOf_append, gensOf]
            · -- resume-map replay
              obtain ⟨t, hl, hc, hg⟩ := loopFrom_cachehit g mode hasCF cache0 rest (i + 1)
                (doSave i txt st) (by simp [doSave, hcash]) hrest
              refine ⟨t, ?_, hc, ?_⟩
              · rw [loopFrom]
                have hstep : stepEntry ⟨g, mode, hasCF⟩ st i e = .ok (doSave i txt st) := by
                  rw [stepEntry, if_neg hb, hp]
                  simp only [hemp, Bool.false_eq_true, if_false, hk, hm]
                rw [hstep]
                exact hl
              · rw [hg]; simp [doSave, gensOf_append, gensOf]

/-- C5 (amended).  With no progress file and a cache pre-populated with
both content kinds for every enrichable entry key — restricted to inputs
whose non-blank entries either parse fully or have empty metadata, since
an entry with partial metadata aborts the run with a `KeyError` — the run
completes with zero generator invocations and an unchanged cache, so a
second run starts from exactly the same state and trivially produces the
identical (byte-identical) output. -/
theorem c5_idempotent_cached (input : String) (cache0 : Dict) (hasCF : Bool)
    (g : Metadata → String → Except Unit String) (mode : String)
    (hsafe : ∀ e ∈ splitSep input, entrySafe cache0 e = true) :
    ∃ r, enhance_journal input none true cache0 hasCF g mode = .ok r ∧
      gensOf r.trace = [] ∧ r.cache = cache0 ∧
      enhance_journal input none true r.cache hasCF g mode =
        enhance_journal input none true cache0 hasCF g mode := by
  obtain ⟨t, hl, hc, hg⟩ := loopFrom_cachehit g mode hasCF cache0 (splitSep input) 1
    (initState (splitSep input) none true cache0) (by rw [initState_none]) hsafe
  have hg0 : gensOf t.trace = [] := by
    rw [hg, initState_trace]; rfl
  by_cases hany : t.trace.any Ev.isSave = true
  · refine ⟨⟨joinSep t.enhanced, t.enhanced,
        t.trace ++ [Ev.outWrite (joinSep t.enhanced), Ev.progDelete], t.cache⟩,
        ?_, ?_, hc, ?_⟩
    · rw [enhance_journal, hl]
      simp only [Option.isSome_none, Bool.false_or, hany, if_true]
      simp [List.append_assoc]
    · show gensOf (t.trace ++ [Ev.outWrite (joinSep t.enhanced), Ev.progDelete]) = []
      rw [gensOf_append, hg0]
      rfl
    · rw [hc]
  · rw [Bool.not_eq_true] at hany
    refine ⟨⟨joinSep t.enhanced, t.enhanced,
        t.trace ++ [Ev.outWrite (joinSep t.enhanced)], t.cache⟩, ?_, ?_, hc, ?_⟩
    · rw [enhance_journal, hl]
      simp only [Option.isSome_none, Bool.false_or, hany, Bool.false_eq_true, if_false]
    · show gensOf (t.trace ++ [Ev.outWrite (joinSep t.enhanced)]) = []
      rw [gensOf_append, hg0]
      rfl
    · rw [hc]

theorem c5_idempotent_cached_witness :
    ∃ r, enhance_journal inputAB none true cacheFull false genG "both" = .ok r ∧
      gensOf r.trace = [] ∧ r.cache = cacheFull ∧
      enhance_journal inputAB none true r.cache false genG "both" =
        enhance_journal inputAB none true cacheFull false genG "both" :=
  c5_idempotent_cached inputAB cacheFull false genG "both" (by decide)

end Enhance

namespace Enhance

/-- C9 (amended).  `get_entry_key` is a deterministic function of the
(date, start_location, destination) triple — identical triples always give
identical keys — and it is injective on triples whose date and start
location contain no underscore; with an underscore inside a field the
separator becomes ambiguous and distinct triples can collide. -/
theorem c9_key_injective_no_underscore (d1 s1 t1 d2 s2 t2 : String)
    (hd1 : '_' ∉ d1.data) (hd2 : '_' ∉ d2.data)
    (hs1 : '_' ∉ s1.data) (hs2 : '_' ∉ s2.data) :
    get_entry_key { date := some d1, destination := some t1,
                    start_location := some s1 } =
      get_entry_key { date := some d2, destination := some t2,
                      start_location := some s2 } ↔
    (d1 = d2 ∧ s1 = s2 ∧ t1 = t2) := by
  constructor
  · intro h
    have hk : d1 ++ "_" ++ s1 ++ "_" ++ t1 = d2 ++ "_" ++ s2 ++ "_" ++ t2 := by
      simpa [get_entry_key] using h
    have hdata : d1.data ++ '_' :: (s1.data ++ '_' :: t1.data) =
        d2.data ++ '_' :: (s2.data ++ '_' :: t2.data) := by
      have := congrArg String.data hk
      simpa [String.data_append, List.append_assoc] using this
    obtain ⟨hd, hrest⟩ := append_sep_inj d1.data d2.data _ _ hd1 hd2 hdata
    obtain ⟨hs, ht⟩ := append_sep_inj s1.data s2.data _ _ hs1 hs2 hrest
    exact ⟨string_data_inj hd, string_data_inj hs, string_data_inj ht⟩
  · rintro ⟨rfl, rfl, rfl⟩
    rfl

theorem c9_key_injective_witness :
    (get_entry_key { date := some "2010-01-04", destination := some "B",
                     start_location := some "C" } =
      get_entry_key { date := some "2010-01-05", destination := some "B",
                      start_location := some "C" } ↔
    (("2010-01-04" : String) = "2010-01-05" ∧ ("C" : String) = "C" ∧
      ("B" : String) = "B")) :=
  c9_key_injective_no_underscore "2010-01-04" "C" "B" "2010-01-05" "C" "B"
    (by decide) (by decide) (by decide) (by decide)

/-- C8 (amended).  `load_progress` returns the empty state, without
raising, when the file is absent, when its content is not valid JSON, or
when the deserialised value is an object lacking `processed_entries` or
(provided `set()` succeeded on the former) lacking `enhanced_entries` —
those raise only the caught `JSONDecodeError`/`KeyError`.  Other malformed
shapes (a non-object top value, a non-iterable or unhashable-element
`processed_entries`) raise `TypeError`, which is not caught. -/
theorem c8_load_progress_soft (f : PFile)
    (h : f = .absent ∨ f = .invalid ∨
      (∃ fs, f = .json (.jobj fs) ∧
        (jlookup fs "processed_entries" = none ∨
          (∃ p s, jlookup fs "processed_entries" = some p ∧ pySet p = .ok s ∧
            jlookup fs "enhanced_entries" = none)))) :
    load_progress f = .ok ([], .jarr []) := by
  rcases h with rfl | rfl | ⟨fs, rfl, hmiss⟩
  · rfl
  · rfl
  · rcases hmiss with hp | ⟨p, s, hp, hs, he⟩
    · simp [load_progress, hp]
    · simp [load_progress, hp, hs, he]

theorem c8_load_progress_soft_witness :
    load_progress (.json (.jobj [("enhanced_entries", .jarr [])])) =
      .ok ([], .jarr []) :=
  c8_load_progress_soft (.json (.jobj [("enhanced_entries", .jarr [])]))
    (.inr (.inr ⟨[("enhanced_entries", .jarr [])], rfl, .inl rfl⟩))

end Enhance

namespace Enhance

/-! ### Infrastructure for the generator-failure isolation theorem -/

theorem ctx_key_inj {k K : String} (h : k ≠ K) :
    ("context_" ++ k : String) ≠ "context_" ++ K :=
  fun he => h (append_left_cancel_str he)

theorem facts_key_inj {k K : String} (h : k ≠ K) :
    ("facts_" ++ k : String) ≠ "facts_" ++ K :=
  fun he => h (append_left_cancel_str he)

theorem ctx_ne_facts (k K : String) : ("context_" ++ k : String) ≠ "facts_" ++ K := by
  intro h
  have hd := congrArg String.data h
  rw [String.data_append, String.data_append] at hd
  have h1 : ("context_" : String).data = 'c' :: "ontext_".data := rfl
  have h2 : ("facts_" : String).data = 'f' :: "acts_".data := rfl
  rw [h1, h2] at hd
  simp at hd

theorem facts_ne_ctx (k K : String) : ("facts_" ++ k : String) ≠ "context_" ++ K :=
  fun h => ctx_ne_facts K k h.symm

theorem cacheRel_dset {K : String} {c c' : Dict} (ck v : String)
    (h : CacheRel K c c') : CacheRel K (dset c ck v) (dset c' ck v) := by
  intro q h1 h2
  by_cases hq : q = ck
  · subst hq
    rw [dget_dset_self, dget_dset_self]
  · rw [dget_dset_ne _ _ _ _ hq, dget_dset_ne _ _ _ _ hq]
    exact h q h1 h2

/-- Case analysis of the cache after `fetchKind`: either untouched, or
updated exactly at the derived cache key of this kind. -/
theorem fetchKind_cache_cases (cfg : Config) (md : Metadata) (key kind : String)
    (st : St) :
    (fetchKind cfg md key kind st).2.cache = st.cache ∨
    ∃ v, (fetchKind cfg md key kind st).2.cache =
      dset st.cache (kind ++ "_" ++ key) v := by
  rcases hc : dget st.cache (kind ++ "_" ++ key) with _ | c
  · rcases hg : cfg.gen md kind with u | c
    · left; simp [fetchKind, hc, hg]
    · by_cases hne : c = ""
      · left; simp [fetchKind, hc, hg, hne]
      · right
        exact ⟨c, by by_cases hcf : cfg.hasCacheFile <;> simp [fetchKind, hc, hg, hne, hcf]⟩
  · left; simp [fetchKind, hc]

/-- With equal mode and cache-file settings and generators that agree on
this metadata, `fetchKind` is the same function of the state. -/
theorem fetchKind_congr (g g' : Metadata → String → Except Unit String)
    (mode : String) (hasCF : Bool) (md : Metadata) (key kind : String) (st : St)
    (hgen : g md kind = g' md kind) :
    fetchKind ⟨g, mode, hasCF⟩ md key kind st =
      fetchKind ⟨g', mode, hasCF⟩ md key kind st := by
  rcases hc : dget st.cache (kind ++ "_" ++ key) with _ | c <;>
    simp [fetchKind, hc, hgen]

theorem genPath_congr (g g' : Metadata → String → Except Unit String)
    (mode : String) (hasCF : Bool) (md : Metadata) (key e0 : String) (st : St)
    (hgen : ∀ kind, g md kind = g' md kind) :
    genPath ⟨g, mode, hasCF⟩ md key e0 st = genPath ⟨g', mode, hasCF⟩ md key e0 st := by
  have hctx := fetchKind_congr g g' mode hasCF md key "context" st (hgen "context")
  by_cases h1 : ((mode = "both" || mode = "context") : Bool) = true
  · have hfacts := fetchKind_congr g g' mode hasCF md key "facts"
      (fetchKind ⟨g', mode, hasCF⟩ md key "context" st).2 (hgen "facts")
    simp [genPath, h1, hctx, hfacts]
  · have hfacts := fetchKind_congr g g' mode hasCF md key "facts" st (hgen "facts")
    simp [genPath, h1, hctx, hfacts]

end Enhance

namespace Enhance

theorem ctx_cat (k : String) : ("context" ++ "_" ++ k : String) = "context_" ++ k := by
  apply string_data_inj
  rw [String.data_append, String.data_append, String.data_append]
  rfl

theorem facts_cat (k : String) : ("facts" ++ "_" ++ k : String) = "facts_" ++ k := by
  apply string_data_inj
  rw [String.data_append, String.data_append, String.data_append]
  rfl

theorem fetchKind_cache_other (cfg : Config) (md : Metadata) (key kind : String)
    (st : St) (q : String) (hq : q ≠ kind ++ "_" ++ key) :
    dget (fetchKind cfg md key kind st).2.cache q = dget st.cache q := by
  rcases fetchKind_cache_cases cfg md key kind st with h | ⟨v, h⟩
  · rw [h]
  · rw [h, dget_dset_ne _ _ _ _ hq]

theorem genPath_cache_other (cfg : Config) (md : Metadata) (key e0 : String)
    (st : St) (q : String)
    (h1 : q ≠ "context_" ++ key) (h2 : q ≠ "facts_" ++ key) :
    dget (genPath cfg md key e0 st).2.cache q = dget st.cache q := by
  have h1' : q ≠ "context" ++ "_" ++ key := by rw [ctx_cat]; exact h1
  have h2' : q ≠ "facts" ++ "_" ++ key := by rw [facts_cat]; exact h2
  by_cases hm1 : (cfg.mode = "both" || cfg.mode = "context") = true <;>
    by_cases hm2 : (cfg.mode = "both" || cfg.mode = "facts") = true <;>
      simp only [genPath, hm1, hm2, if_true, if_false, Bool.false_eq_true] <;>
        simp only [fetchKind_cache_other cfg md key "facts" _ q h2',
          fetchKind_cache_other cfg md key "context" _ q h1']

/-- Processing an entry whose key is not `K` cannot introduce `K` into
the resume map or the cache. -/
theorem stepEntry_KAbsent (cfg : Config) (K : String) (i : Nat) (e : String)
    (st u : St) (hkey : keyOf e ≠ some K)
    (h : stepEntry cfg st i e = .ok u) (hK : KAbsent K st) : KAbsent K u := by
  by_cases hb : pyStrip e = ""
  · have : u = st := by
      have := h.symm.trans (by simp [stepEntry, hb] : stepEntry cfg st i e = .ok st)
      simpa using this
    rwa [this]
  · rw [stepEntry, if_neg hb] at h
    split at h
    · exact absurd h (by simp)
    · rename_i md hp
      split at h
      · have hu : u = doSave i e st := by simpa using h.symm
        exact ⟨by simp [hu, doSave, hK.1], by simp [hu, doSave, hK.2.1],
          by simp [hu, doSave, hK.2.2]⟩
      · rename_i hemp
        split at h
        · exact absurd h (by simp)
        · rename_i key hk
          have hkK : key ≠ K := by
            intro hkk
            apply hkey
            rw [keyOf, hp]
            simp [hemp, hk, hkk]
          split at h
          · rename_i txt hm
            have hu : u = doSave i txt st := by simpa using h.symm
            exact ⟨by simp [hu, doSave, hK.1], by simp [hu, doSave, hK.2.1],
              by simp [hu, doSave, hK.2.2]⟩
          · set p := genPath cfg md key (pyStrip e) st with hpdef
            have hu : u = doSave i p.1 { p.2 with emap := dset p.2.emap key p.1 } := by
              simpa using h.symm
            obtain ⟨hpr, hen, hmm, _, _, _⟩ := genPath_spec cfg md key (pyStrip e) st
            refine ⟨?_, ?_, ?_⟩
            · simp only [hu, doSave]
              rw [dget_dset_ne _ _ _ _ (fun hh => hkK hh.symm), hmm]
              exact hK.1
            · simp only [hu, doSave]
              exact (genPath_cache_other cfg md key (pyStrip e) st _
                (ctx_key_inj (fun hh => hkK hh.symm))
                (ctx_ne_facts K key)).trans hK.2.1
            · simp only [hu, doSave]
              exact (genPath_cache_other cfg md key (pyStrip e) st _
                (facts_ne_ctx K key)
                (facts_key_inj (fun hh => hkK hh.symm))).trans hK.2.2

/-- On an entry whose key is not `K`, the two runs take the very same step
when their generators agree away from `K`. -/
theorem stepEntry_congr (g g' : Metadata → String → Except Unit String)
    (mode : String) (hasCF : Bool) (K : String) (i : Nat) (e : String) (st : St)
    (hkey : keyOf e ≠ some K)
    (hagree : ∀ md kind, get_entry_key md ≠ .ok K → g md kind = g' md kind) :
    stepEntry ⟨g, mode, hasCF⟩ st i e = stepEntry ⟨g', mode, hasCF⟩ st i e := by
  by_cases hb : pyStrip e = ""
  · simp [stepEntry, hb]
  · rw [stepEntry, stepEntry, if_neg hb, if_neg hb]
    split
    · rfl
    · rename_i md hp
      split
      · rfl
      · rename_i hemp
        split
        · rfl
        · rename_i key hk
          split
          · rfl
          · rename_i hm
            have hkK : key ≠ K := by
              intro hkk
              apply hkey
              rw [keyOf, hp]
              simp [hemp, hk, hkk]
            have hgen : ∀ kind, g md kind = g' md kind := by
              intro kind
              apply hagree
              rw [hk]
              intro hcc
              exact hkK (by simpa using hcc)
            rw [genPath_congr g g' mode hasCF md key (pyStrip e) st hgen]

/-- Over a list of entries none of which has key `K`, the two runs are
literally equal and `K` stays absent from the state. -/
theorem loopFrom_pre (g g' : Metadata → String → Except Unit String)
    (mode : String) (hasCF : Bool) (K : String)
    (hagree : ∀ md kind, get_entry_key md ≠ .ok K → g md kind = g' md kind) :
    ∀ (es : List String) (i : Nat) (st : St),
    (∀ e ∈ es, keyOf e ≠ some K) → KAbsent K st →
    loopFrom ⟨g, mode, hasCF⟩ i es st = loopFrom ⟨g', mode, hasCF⟩ i es st ∧
    (∀ u, loopFrom ⟨g, mode, hasCF⟩ i es st = .ok u → KAbsent K u)
  | [], i, st, _, hK => ⟨rfl, fun u h => by
      have : u = st := by simpa [loopFrom] using h.symm
      rwa [this]⟩
  | e :: rest, i, st, hes, hK => by
    have hcon := stepEntry_congr g g' mode hasCF K i e st
      (hes e (List.mem_cons_self e rest)) hagree
    have hrest : ∀ x ∈ rest, keyOf x ≠ some K :=
      fun x hx => hes x (List.mem_cons_of_mem e hx)
    rcases hs : stepEntry ⟨g, mode, hasCF⟩ st i e with err | st1
    · refine ⟨?_, ?_⟩
      · rw [loopFrom, loopFrom, hs, ← hcon, hs]
      · intro u hu
        rw [loopFrom, hs] at hu
        exact absurd hu (by simp)
    · have hK1 : KAbsent K st1 :=
        stepEntry_KAbsent _ K i e st st1 (hes e (List.mem_cons_self e rest)) hs hK
      obtain ⟨ih1, ih2⟩ := loopFrom_pre g g' mode hasCF K hagree rest (i + 1) st1 hrest hK1
      refine ⟨?_, ?_⟩
      · rw [loopFrom, loopFrom, hs, ← hcon, hs]
        exact ih1
      · intro u hu
        rw [loopFrom, hs] at hu
        exact ih2 u (by simpa using hu)

end Enhance

namespace Enhance

theorem fetchKind_rel (g g' : Metadata → String → Except Unit String)
    (mode : String) (hasCF : Bool) (md : Metadata) (K key kind : String)
    (st st' : St)
    (hck1 : kind ++ "_" ++ key ≠ "context_" ++ K)
    (hck2 : kind ++ "_" ++ key ≠ "facts_" ++ K)
    (hgen : g md kind = g' md kind)
    (hcache : CacheRel K st.cache st'.cache) :
    (fetchKind ⟨g, mode, hasCF⟩ md key kind st).1 =
      (fetchKind ⟨g', mode, hasCF⟩ md key kind st').1 ∧
    CacheRel K (fetchKind ⟨g, mode, hasCF⟩ md key kind st).2.cache
      (fetchKind ⟨g', mode, hasCF⟩ md key kind st').2.cache := by
  have hlook : dget st.cache (kind ++ "_" ++ key) =
      dget st'.cache (kind ++ "_" ++ key) := hcache _ hck1 hck2
  rcases hc : dget st.cache (kind ++ "_" ++ key) with _ | c
  · have hc' : dget st'.cache (kind ++ "_" ++ key) = none := by rw [← hlook, hc]
    rcases hg2 : g md kind with u | c
    · have hg2' : g' md kind = .error u := by rw [← hgen, hg2]
      exact ⟨by simp [fetchKind, hc, hc', hg2, hg2'],
        by simpa [fetchKind, hc, hc', hg2, hg2'] using hcache⟩
    · have hg2' : g' md kind = .ok c := by rw [← hgen, hg2]
      by_cases hne : c = ""
      · exact ⟨by simp [fetchKind, hc, hc', hg2, hg2', hne],
          by simpa [fetchKind, hc, hc', hg2, hg2', hne] using hcache⟩
      · refine ⟨by simp [fetchKind, hc, hc', hg2, hg2', hne], ?_⟩
        have hd := cacheRel_dset (K := K) (kind ++ "_" ++ key) c hcache
        by_cases hcf : hasCF <;>
          simpa [fetchKind, hc, hc', hg2, hg2', hne, hcf] using hd
  · have hc' : dget st'.cache (kind ++ "_" ++ key) = some c := by rw [← hlook, hc]
    exact ⟨by simp [fetchKind, hc, hc'],
      by simpa [fetchKind, hc, hc'] using hcache⟩

theorem genPath_rel (g g' : Metadata → String → Except Unit String)
    (mode : String) (hasCF : Bool) (md : Metadata) (K key e0 : String)
    (st st' : St) (hkK : key ≠ K)
    (hgen : ∀ kind, g md kind = g' md kind)
    (hcache : CacheRel K st.cache st'.cache) :
    (genPath ⟨g, mode, hasCF⟩ md key e0 st).1 =
      (genPath ⟨g', mode, hasCF⟩ md key e0 st').1 ∧
    CacheRel K (genPath ⟨g, mode, hasCF⟩ md key e0 st).2.cache
      (genPath ⟨g', mode, hasCF⟩ md key e0 st').2.cache := by
  have hc1 : ("context" : String) ++ "_" ++ key ≠ "context_" ++ K := by
    rw [ctx_cat]; exact ctx_key_inj hkK
  have hc2 : ("context" : String) ++ "_" ++ key ≠ "facts_" ++ K := by
    rw [ctx_cat]; exact ctx_ne_facts key K
  have hf1 : ("facts" : String) ++ "_" ++ key ≠ "context_" ++ K := by
    rw [facts_cat]; exact facts_ne_ctx key K
  have hf2 : ("facts" : String) ++ "_" ++ key ≠ "facts_" ++ K := by
    rw [facts_cat]; exact facts_key_inj hkK
  obtain ⟨hv1, hr1⟩ := fetchKind_rel g g' mode hasCF md K key "context" st st'
    hc1 hc2 (hgen "context") hcache
  by_cases h1 : ((mode = "both" || mode = "context") : Bool) = true
  · obtain ⟨hv2, hr2⟩ := fetchKind_rel g g' mode hasCF md K key "facts"
      (fetchKind ⟨g, mode, hasCF⟩ md key "context" st).2
      (fetchKind ⟨g', mode, hasCF⟩ md key "context" st').2 hf1 hf2 (hgen "facts") hr1
    by_cases h2 : ((mode = "both" || mode = "facts") : Bool) = true <;>
      constructor <;> simp [genPath, h1, h2, hv1, hv2, hr1, hr2]
  · obtain ⟨hv2, hr2⟩ := fetchKind_rel g g' mode hasCF md K key "facts" st st'
      hf1 hf2 (hgen "facts") hcache
    by_cases h2 : ((mode = "both" || mode = "facts") : Bool) = true <;>
      constructor <;> simp [genPath, h1, h2, hv1, hv2, hr2, hcache]

end Enhance

namespace Enhance

/-- Appending the same resolved text via `doSave` on related base
components preserves the run relation. -/
theorem relK_append' {K : String} {p0 : Nat} {xf : String} {st st' a a' : St}
    (hrel : RelK K p0 xf st st') (i : Nat) (y : String)
    (hpr : a.processed = st.processed) (hpr' : a'.processed = st'.processed)
    (hen : a.enhanced = st.enhanced) (hen' : a'.enhanced = st'.enhanced)
    (hmap : ∀ k, k ≠ K → dget a.emap k = dget a'.emap k)
    (hcache : CacheRel K a.cache a'.cache) :
    RelK K p0 xf (doSave i y a) (doSave i y a') := by
  obtain ⟨h1, h2, h3, h4, h5, h6⟩ := hrel
  have hp0lt : p0 < st.enhanced.length := (List.getElem?_eq_some_iff.mp h4).1
  refine ⟨?_, ?_, ?_, ?_, ?_, ?_⟩
  · simp [doSave, hpr, hpr', h1]
  · simp [doSave, hen, hen', h2]
  · intro j hj
    simp only [doSave, hen, hen']
    by_cases hjl : j < st.enhanced.length
    · rw [List.getElem?_append_left hjl, List.getElem?_append_left (h2 ▸ hjl)]
      exact h3 j hj
    · have hjl' : st.enhanced.length ≤ j := Nat.le_of_not_lt hjl
      rw [List.getElem?_append_right hjl', List.getElem?_append_right (h2 ▸ hjl')]
      rw [h2]
  · simp only [doSave, hen]
    rw [List.getElem?_append_left hp0lt]
    exact h4
  · intro k hk
    simp only [doSave]
    exact hmap k hk
  · intro q hq1 hq2
    simp only [doSave]
    exact hcache q hq1 hq2

/-- On an entry whose key is not `K`, related states step to related
states, appending the same resolved text on both sides. -/
theorem stepEntry_rel (g g' : Metadata → String → Except Unit String)
    (mode : String) (hasCF : Bool) (K : String) (p0 : Nat) (xf : String)
    (i : Nat) (e : String) (st st' : St)
    (hkey : keyOf e ≠ some K) (hok : entryOkB e = true)
    (hagree : ∀ md kind, get_entry_key md ≠ .ok K → g md kind = g' md kind)
    (hrel : RelK K p0 xf st st') :
    ∃ u u', stepEntry ⟨g, mode, hasCF⟩ st i e = .ok u ∧
      stepEntry ⟨g', mode, hasCF⟩ st' i e = .ok u' ∧ RelK K p0 xf u u' := by
  by_cases hb : pyStrip e = ""
  · exact ⟨st, st', by simp [stepEntry, hb], by simp [stepEntry, hb], hrel⟩
  · rw [entryOkB, Bool.or_eq_true] at hok
    rcases hok with hbe | hok
    · exact absurd (of_decide_eq_true hbe) hb
    rcases hp : parse_entry_metadata e with err | md
    · rw [hp] at hok; simp at hok
    · rw [hp] at hok
      by_cases hemp : md.isEmpty
      · refine ⟨doSave i e st, doSave i e st', ?_, ?_, ?_⟩
        · rw [stepEntry, if_neg hb, hp]; simp [hemp]
        · rw [stepEntry, if_neg hb, hp]; simp [hemp]
        · exact relK_append' hrel i e rfl rfl rfl rfl
            (fun k hk => hrel.2.2.2.2.1 k hk) hrel.2.2.2.2.2
      · have hok' : (match get_entry_key md with
            | .ok _ => true
            | .error _ => false) = true := by
          rw [Bool.or_eq_true] at hok
          rcases hok with h' | h'
          · exact absurd h' (by simpa using hemp)
          · exact h'
        rcases hk : get_entry_key md with err | key
        · rw [hk] at hok'; simp at hok'
        · have hkK : key ≠ K := by
            intro hkk
            apply hkey
            rw [keyOf, hp]
            simp [hemp, hk, hkk]
          have hmapk : dget st.emap key = dget st'.emap key :=
            hrel.2.2.2.2.1 key hkK
          rcases hm : dget st.emap key with _ | txt
          · have hm' : dget st'.emap key = none := by rw [← hmapk, hm]
            have hgen : ∀ kind, g md kind = g' md kind := by
              intro kind
              apply hagree
              rw [hk]
              intro hcc
              exact hkK (by simpa using hcc)
            obtain ⟨hv, hcrel⟩ := genPath_rel g g' mode hasCF md K key (pyStrip e)
              st st' hkK hgen hrel.2.2.2.2.2
            obtain ⟨gp1, ge1, gm1, _, _, _⟩ :=
              genPath_spec ⟨g, mode, hasCF⟩ md key (pyStrip e) st
            obtain ⟨gp2, ge2, gm2, _, _, _⟩ :=
              genPath_spec ⟨g', mode, hasCF⟩ md key (pyStrip e) st'
            set pG := genPath ⟨g, mode, hasCF⟩ md key (pyStrip e) st with hpG
            set pG' := genPath ⟨g', mode, hasCF⟩ md key (pyStrip e) st' with hpG'
            refine ⟨doSave i pG.1 { pG.2 with emap := dset pG.2.emap key pG.1 },
              doSave i pG'.1 { pG'.2 with emap := dset pG'.2.emap key pG'.1 },
              ?_, ?_, ?_⟩
            · rw [stepEntry, if_neg hb, hp]
              simp only [hemp, Bool.false_eq_true, if_false, hk, hm]
            · rw [stepEntry, if_neg hb, hp]
              simp only [hemp, Bool.false_eq_true, if_false, hk, hm']
            · rw [← hv]
              apply relK_append' hrel i pG.1 (by simp [gp1]) (by simp [gp2])
                (by simp [ge1]) (by simp [ge2])
              · intro k hkne
                by_cases hkk : k = key
                · subst hkk
                  simp only [dget_dset_self, hv]
                · simp only [dget_dset_ne _ _ _ _ hkk, gm1, gm2]
                  exact hrel.2.2.2.2.1 k hkne
              · exact hcrel
          · have hm' : dget st'.emap key = some txt := by rw [← hmapk, hm]
            refine ⟨doSave i txt st, doSave i txt st', ?_, ?_, ?_⟩
            · rw [stepEntry, if_neg hb, hp]
              simp only [hemp, Bool.false_eq_true, if_false, hk, hm]
            · rw [stepEntry, if_neg hb, hp]
              simp only [hemp, Bool.false_eq_true, if_false, hk, hm']
            · exact relK_append' hrel i txt rfl rfl rfl rfl
                (fun k hk => hrel.2.2.2.2.1 k hk) hrel.2.2.2.2.2

/-- The post-phase loop: related states stay related. -/
theorem loopFrom_rel (g g' : Metadata → String → Except Unit String)
    (mode : String) (hasCF : Bool) (K : String) (p0 : Nat) (xf : String)
    (hagree : ∀ md kind, get_entry_key md ≠ .ok K → g md kind = g' md kind) :
    ∀ (es : List String) (i : Nat) (st st' : St),
    (∀ e ∈ es, keyOf e ≠ some K ∧ entryOkB e = true) →
    RelK K p0 xf st st' →
    ∃ t t', loopFrom ⟨g, mode, hasCF⟩ i es st = .ok t ∧
      loopFrom ⟨g', mode, hasCF⟩ i es st' = .ok t' ∧ RelK K p0 xf t t'
  | [], i, st, st', _, hrel => ⟨st, st', rfl, rfl, hrel⟩
  | e :: rest, i, st, st', hes, hrel => by
    obtain ⟨u, u', hu, hu', hrel1⟩ := stepEntry_rel g g' mode hasCF K p0 xf i e st st'
      (hes e (List.mem_cons_self e rest)).1 (hes e (List.mem_cons_self e rest)).2
      hagree hrel
    obtain ⟨t, t', ht, ht', hrel2⟩ := loopFrom_rel g g' mode hasCF K p0 xf hagree
      rest (i + 1) u u' (fun x hx => hes x (List.mem_cons_of_mem e hx)) hrel1
    refine ⟨t, t', ?_, ?_, hrel2⟩
    · rw [loopFrom, hu]; exact ht
    · rw [loopFrom, hu']; exact ht'

end Enhance

namespace Enhance

/-- When neither content kind of key `K` is cached and the generator
raises for both kinds, the generation path yields the bare stripped text
and leaves cache and resume map untouched. -/
theorem genPath_fail (g : Metadata → String → Except Unit String)
    (mode : String) (hasCF : Bool) (md : Metadata) (K e0 : String) (st : St)
    (hc : dget st.cache ("context_" ++ K) = none)
    (hf : dget st.cache ("facts_" ++ K) = none)
    (hfail : ∀ kind, g md kind = .error ()) :
    (genPath ⟨g, mode, hasCF⟩ md K e0 st).1 = e0 ∧
    (genPath ⟨g, mode, hasCF⟩ md K e0 st).2.cache = st.cache := by
  have hc' : dget st.cache ("context" ++ "_" ++ K) = none := by rw [ctx_cat]; exact hc
  have hf' : dget st.cache ("facts" ++ "_" ++ K) = none := by rw [facts_cat]; exact hf
  by_cases h1 : ((mode = "both" || mode = "context") : Bool) = true <;>
    by_cases h2 : ((mode = "both" || mode = "facts") : Bool) = true <;>
      constructor <;>
        simp [genPath, fetchKind, h1, h2, hc, hf, hc', hf', hfail "context",
          hfail "facts"]

/-- The step taken at the failing entry: the original text, stripped, is
appended with no generated block, the ordinal is processed and saved, the
cache is untouched, and only `K` is added to the resume map. -/
theorem stepEntry_fail (g : Metadata → String → Except Unit String)
    (mode : String) (hasCF : Bool) (K : String) (i : Nat) (ef : String)
    (md0 : Metadata) (st : St)
    (hb : pyStrip ef ≠ "")
    (hp : parse_entry_metadata ef = .ok md0) (hemp : md0.isEmpty = false)
    (hk : get_entry_key md0 = .ok K)
    (hKa : KAbsent K st)
    (hfail : ∀ kind, g md0 kind = .error ()) :
    ∃ u, stepEntry ⟨g, mode, hasCF⟩ st i ef = .ok u ∧
      u.processed = insNat i st.processed ∧
      u.enhanced = st.enhanced ++ [pyStrip ef] ∧
      u.cache = st.cache ∧
      (∀ k, k ≠ K → dget u.emap k = dget st.emap k) := by
  obtain ⟨hv, hcc⟩ := genPath_fail g mode hasCF md0 K (pyStrip ef) st hKa.2.1 hKa.2.2 hfail
  obtain ⟨gp, ge, gm, _, _, _⟩ := genPath_spec ⟨g, mode, hasCF⟩ md0 K (pyStrip ef) st
  set pG := genPath ⟨g, mode, hasCF⟩ md0 K (pyStrip ef) st with hpG
  refine ⟨doSave i pG.1 { pG.2 with emap := dset pG.2.emap K pG.1 }, ?_, ?_, ?_, ?_, ?_⟩
  · rw [stepEntry, if_neg hb, hp]
    simp only [hemp, Bool.false_eq_true, if_false, hk, hKa.1]
  · simp [doSave, gp]
  · simp [doSave, ge, hv]
  · simp [doSave, hcc]
  · intro k hkne
    simp only [doSave]
    rw [dget_dset_ne _ _ _ _ hkne, gm]

theorem loopFrom_append (cfg : Config) :
    ∀ (a : List String) (b : List String) (i : Nat) (st : St),
    loopFrom cfg i (a ++ b) st =
      match loopFrom cfg i a st with
      | .error e => .error e
      | .ok u => loopFrom cfg (i + a.length) b u
  | [], b, i, st => by simp [loopFrom]
  | e :: rest, b, i, st => by
    rw [List.cons_append, loopFrom, loopFrom]
    rcases hs : stepEntry cfg st i e with err | st1
    · rfl
    · show loopFrom cfg (i + 1) (rest ++ b) st1 =
        match loopFrom cfg (i + 1) rest st1 with
        | .error e => .error e
        | .ok u => loopFrom cfg (i + (e :: rest).length) b u
      rw [loopFrom_append cfg rest b (i + 1) st1]
      have harith : i + 1 + rest.length = i + (e :: rest).length := by
        simp [List.length_cons]; omega
      rw [harith]

/-- Two lists agreeing everywhere except one in-bounds position differ by
a single `set`. -/
theorem list_eq_set_of_rel {l l' : List String} {p0 : Nat} {v : String}
    (hlen : l.length = l'.length) (hj : ∀ j, j ≠ p0 → l[j]? = l'[j]?)
    (hp : l[p0]? = some v) : l = l'.set p0 v := by
  have hp0lt : p0 < l.length := (List.getElem?_eq_some_iff.mp hp).1
  apply List.ext_getElem?
  intro n
  rw [List.getElem?_set]
  by_cases hn : p0 = n
  · subst hn
    rw [if_pos rfl, if_pos (hlen ▸ hp0lt)]
    exact hp
  · rw [if_neg hn]
    exact hj n (fun hh => hn hh.symm)

end Enhance

namespace Enhance

/-- The step any generator takes at an entry with key `K` not yet in the
resume map: one text is appended, only `K` is added to the resume map,
and only the two derived cache keys of `K` can change in the cache. -/
theorem stepEntry_atK (g : Metadata → String → Except Unit String)
    (mode : String) (hasCF : Bool) (K : String) (i : Nat) (ef : String)
    (md0 : Metadata) (st : St)
    (hb : pyStrip ef ≠ "")
    (hp : parse_entry_metadata ef = .ok md0) (hemp : md0.isEmpty = false)
    (hk : get_entry_key md0 = .ok K)
    (hKmiss : dget st.emap K = none) :
    ∃ u y, stepEntry ⟨g, mode, hasCF⟩ st i ef = .ok u ∧
      u.processed = insNat i st.processed ∧
      u.enhanced = st.enhanced ++ [y] ∧
      (∀ k, k ≠ K → dget u.emap k = dget st.emap k) ∧
      (∀ q, q ≠ "context_" ++ K → q ≠ "facts_" ++ K →
        dget u.cache q = dget st.cache q) := by
  obtain ⟨gp, ge, gm, _, _, _⟩ := genPath_spec ⟨g, mode, hasCF⟩ md0 K (pyStrip ef) st
  set pG := genPath ⟨g, mode, hasCF⟩ md0 K (pyStrip ef) st with hpG
  refine ⟨doSave i pG.1 { pG.2 with emap := dset pG.2.emap K pG.1 }, pG.1,
    ?_, ?_, ?_, ?_, ?_⟩
  · rw [stepEntry, if_neg hb, hp]
    simp only [hemp, Bool.false_eq_true, if_false, hk, hKmiss]
  · simp [doSave, gp]
  · simp [doSave, ge]
  · intro k hkne
    simp only [doSave]
    rw [dget_dset_ne _ _ _ _ hkne, gm]
  · intro q hq1 hq2
    simp only [doSave]
    exact genPath_cache_other _ md0 K (pyStrip ef) st q hq1 hq2

/-- C4 (amended).  Suppose the generator `g` raises for the (uniquely
keyed) entry `ef` while `g'` agrees with `g` on every other key and
succeeds on `ef`, nothing of `ef`'s key is cached, there is no progress
file, and every other entry of the input is blank, pass-through, or fully
parsable with a key different from `ef`'s.  If the `g'` run completes,
then the `g` run also completes without raising, and its output list is
exactly the `g'` run's output list with `ef`'s position replaced by the
whitespace-STRIPPED original text of `ef` (not the verbatim original) and
no generated block: all entries before and after `ef` are unaffected. -/
theorem c4_generator_failure_isolation (input : String) (cache0 : Dict)
    (hasCF : Bool) (g g' : Metadata → String → Except Unit String) (mode : String)
    (pre post : List String) (ef : String) (md0 : Metadata) (K : String)
    (r' : RunResult)
    (hsplit : splitSep input = pre ++ ef :: post)
    (hb : pyStrip ef ≠ "")
    (hp : parse_entry_metadata ef = .ok md0)
    (hemp : md0.isEmpty = false)
    (hk : get_entry_key md0 = .ok K)
    (hpre : ∀ e ∈ pre, keyOf e ≠ some K ∧ entryOkB e = true)
    (hpost : ∀ e ∈ post, keyOf e ≠ some K ∧ entryOkB e = true)
    (hfail : ∀ kind, g md0 kind = .error ())
    (hagree : ∀ md kind, get_entry_key md ≠ .ok K → g md kind = g' md kind)
    (hcache : dget cache0 ("context_" ++ K) = none ∧
      dget cache0 ("facts_" ++ K) = none)
    (h' : enhance_journal input none true cache0 hasCF g' mode = .ok r') :
    ∃ r, enhance_journal input none true cache0 hasCF g mode = .ok r ∧
      r.outputList = r'.outputList.set (countNB pre) (pyStrip ef) ∧
      r.outputList[countNB pre]? = some (pyStrip ef) := by
  obtain ⟨t', hloop', hout', holist', _, _, _⟩ :=
    run_ok_spec input none true cache0 hasCF g' mode r' h'
  rw [initState_none, hsplit] at hloop'
  rw [loopFrom_append] at hloop'
  rcases hpre0 : loopFrom ⟨g', mode, hasCF⟩ 1 pre ⟨[], [], [], cache0, []⟩
    with err | u0'
  · rw [hpre0] at hloop'; exact absurd hloop' (by simp)
  · rw [hpre0] at hloop'
    have hloop2 : loopFrom ⟨g', mode, hasCF⟩ (1 + pre.length) (ef :: post) u0' =
        .ok t' := hloop'
    rw [loopFrom] at hloop2
    rcases hstep' : stepEntry ⟨g', mode, hasCF⟩ u0' (1 + pre.length) ef
      with err | u1'
    · rw [hstep'] at hloop2; exact absurd hloop2 (by simp)
    · rw [hstep'] at hloop2
      have hpost' : loopFrom ⟨g', mode, hasCF⟩ (1 + pre.length + 1) post u1' =
          .ok t' := hloop2
      -- the pre phase of the g run is identical and keeps K absent
      have hK0 : KAbsent K (⟨[], [], [], cache0, []⟩ : St) :=
        ⟨rfl, hcache.1, hcache.2⟩
      obtain ⟨hpreEq, hpreKA⟩ := loopFrom_pre g g' mode hasCF K hagree pre 1
        ⟨[], [], [], cache0, []⟩ (fun e he => (hpre e he).1) hK0
      have hpre0g : loopFrom ⟨g, mode, hasCF⟩ 1 pre ⟨[], [], [], cache0, []⟩ =
          .ok u0' := by rw [hpreEq]; exact hpre0
      have hKAu0 : KAbsent K u0' := hpreKA u0' hpre0g
      -- the failing step of the g run
      obtain ⟨u1, hstep, hupr, huen, hucache, humap⟩ :=
        stepEntry_fail g mode hasCF K (1 + pre.length) ef md0 u0' hb hp hemp hk
          hKAu0 hfail
      -- the same step of the g' run, characterised
      obtain ⟨u1'c, y', hstep'c, hupr', huen', humap', hucache'⟩ :=
        stepEntry_atK g' mode hasCF K (1 + pre.length) ef md0 u0' hb hp hemp hk
          hKAu0.1
      have hu1eq : u1' = u1'c := by
        have := hstep'.symm.trans hstep'c
        simpa using this
      subst hu1eq
      -- the states after the failing entry are related at position p0
      set p0 := u0'.enhanced.length with hp0def
      have hrel1 : RelK K p0 (pyStrip ef) u1 u1' := by
        refine ⟨?_, ?_, ?_, ?_, ?_, ?_⟩
        · rw [hupr, hupr']
        · rw [huen, huen']; simp
        · intro j hj
          rw [huen, huen']
          by_cases hjl : j < u0'.enhanced.length
          · rw [List.getElem?_append_left hjl, List.getElem?_append_left hjl]
          · have hjl' : u0'.enhanced.length ≤ j := Nat.le_of_not_lt hjl
            have hjgt : u0'.enhanced.length < j := by
              rcases Nat.lt_or_ge u0'.enhanced.length j with h1 | h1
              · exact h1
              · exact absurd (Nat.le_antisymm hjl' h1) (fun hh => hj hh.symm)
            rw [List.getElem?_append_right hjl', List.getElem?_append_right hjl']
            have : j - u0'.enhanced.length ≠ 0 := by omega
            rcases Nat.exists_eq_succ_of_ne_zero this with ⟨m, hm⟩
            rw [hm]
            simp
        · rw [huen]
          exact List.getElem?_concat_length u0'.enhanced (pyStrip ef)
        · intro k hkne
          rw [humap k hkne, humap' k hkne]
        · intro q hq1 hq2
          rw [hucache, hucache' q hq1 hq2]
      -- the post phase keeps the relation
      obtain ⟨t, t'', hpostg, hpostg', hrel2⟩ := loopFrom_rel g g' mode hasCF K p0
        (pyStrip ef) hagree post (1 + pre.length + 1) u1 u1'
        (fun e he => ⟨(hpost e he).1, (hpost e he).2⟩) hrel1
      have ht'' : t'' = t' := by
        have := hpostg'.symm.trans hpost'
        simpa using this
      rw [ht''] at hrel2
      -- assemble the g run
      have hloopg : loopFrom ⟨g, mode, hasCF⟩ 1 (splitSep input)
          ⟨[], [], [], cache0, []⟩ = .ok t := by
        rw [hsplit, loopFrom_append, hpre0g]
        show loopFrom ⟨g, mode, hasCF⟩ (1 + pre.length) (ef :: post) u0' = .ok t
        rw [loopFrom, hstep]
        show loopFrom ⟨g, mode, hasCF⟩ (1 + pre.length + 1) post u1 = .ok t
        exact hpostg
      -- p0 is the output position of ef
      obtain ⟨_, hlen0, _⟩ := loopFrom_spec _ pre 1 _ u0' hpre0g
      have hp0 : p0 = countNB pre := by
        rw [hp0def, hlen0]
        simp
      -- output lists
      have hset : t.enhanced = t'.enhanced.set (countNB pre) (pyStrip ef) := by
        rw [← hp0]
        exact list_eq_set_of_rel hrel2.2.1 hrel2.2.2.1 hrel2.2.2.2.1
      have hat : t.enhanced[countNB pre]? = some (pyStrip ef) := by
        rw [← hp0]
        exact hrel2.2.2.2.1
      by_cases hany : t.trace.any Ev.isSave = true
      · refine ⟨⟨joinSep t.enhanced, t.enhanced,
          t.trace ++ [Ev.outWrite (joinSep t.enhanced), Ev.progDelete], t.cache⟩,
          ?_, ?_, ?_⟩
        · rw [enhance_journal, initState_none, hloopg]
          simp only [Option.isSome_none, Bool.false_or, hany, if_true]
          simp [List.append_assoc]
        · rw [holist']
          exact hset
        · exact hat
      · rw [Bool.not_eq_true] at hany
        refine ⟨⟨joinSep t.enhanced, t.enhanced,
          t.trace ++ [Ev.outWrite (joinSep t.enhanced)], t.cache⟩, ?_, ?_, ?_⟩
        · rw [enhance_journal, initState_none, hloopg]
          simp only [Option.isSome_none, Bool.false_or, hany, Bool.false_eq_true,
            if_false]
        · rw [holist']
          exact hset
        · exact hat

end Enhance

namespace Enhance

set_option maxRecDepth 4000 in
theorem c4_generator_failure_isolation_witness :
    ∃ r, enhance_journal inputABC none true [] false genKB "context" = .ok r ∧
      r.outputList =
        (okOf (enhance_journal inputABC none true [] false genG "context")).outputList.set
          (countNB [entryA]) (pyStrip entryB) ∧
      r.outputList[countNB [entryA]]? = some (pyStrip entryB) :=
  c4_generator_failure_isolation inputABC [] false genKB genG "context"
    [entryA] [entryC] entryB mdB "2010-01-05_E_D"
    (okOf (enhance_journal inputABC none true [] false genG "context"))
    (by decide) (by decide) (by decide) (by decide) (by decide)
    (by decide) (by decide)
    (fun kind => by simp [genKB, mdB, get_entry_key])
    (fun md kind h => by simp [genKB, genG, h])
    (by decide) (by decide)

end Enhance
